import Mathlib

/-!
Verification of the client-side controller of the resume-optimizer web tool
(`src/static/js/app.js`).  The JavaScript is shallowly embedded: DOM mutation
becomes explicit record updates, timer scheduling becomes an explicit list of
pending tasks, strings are `String`/`List Char`, JS numbers are `Int`/`ℚ`,
and JS truthiness of optional string fields is modelled explicitly
(`none` and `some ""` are falsy).
-/

namespace ResumeOptimizer

/-! ## Outcome classification of the form submit handler (app.js lines 146-195)

The handler awaits `fetch('/analyze')` and `response.json()`; then
`if (!response.ok || data.error) throw new Error(data.error || 'Analysis failed')`.
The `catch` block displays `err.message` and shows the error section; the
`finally` block re-enables the analyze button.  A rejection of `fetch`/`json`
(network or parse failure) is caught with the environment-supplied message of
the rejection, which we carry explicitly in `FetchOutcome.netError`. -/

/-- One of the four mutually exclusive top-level views. -/
inductive View
  | upload | loading | results | error
deriving DecidableEq, Repr

/-- Relevant part of the parsed JSON response body: the `error` field.
`none` models an absent field; `some ""` is present but falsy in JS. -/
structure Body where
  error : Option String
deriving DecidableEq, Repr

/-- JS truthiness of an optional string field (`undefined`, `null` and `""` are falsy). -/
def jsTruthy : Option String → Bool
  | none => false
  | some s => s != ""

/-- Models the JS expression `e || fb` for an optional string field `e`. -/
def jsOr (e : Option String) (fb : String) : String :=
  match e with
  | none => fb
  | some s => if s = "" then fb else s

/-- Result of one completed submission: the view shown afterwards, the text of
`errorMessage` when the error view is shown, and the final disabled state of
the analyze button. -/
structure SubmitResult where
  view : View
  errorMessage : Option String
  analyzeBtnDisabled : Bool
deriving DecidableEq, Repr

/-- Outcome of the awaited `fetch`/`response.json()` pair: either a rejection
carrying the environment's message (network or parse failure), or a settled
response with its `ok` flag (2xx status) and parsed body. -/
inductive FetchOutcome
  | netError (msg : String)
  | response (ok : Bool) (body : Body)
deriving DecidableEq, Repr

/-- Embedding of the try/catch/finally of the submit handler (app.js 175-194),
restricted to outcome classification: which view ends up shown, which message
is displayed, and the button state after `finally`. -/
def submitFlow : FetchOutcome → SubmitResult
  | .netError m => { view := .error, errorMessage := some m, analyzeBtnDisabled := false }
  | .response ok body =>
    if !ok || jsTruthy body.error then
      { view := .error
        errorMessage := some (jsOr body.error "Analysis failed")
        analyzeBtnDisabled := false }
    else
      { view := .results, errorMessage := none, analyzeBtnDisabled := false }

/-! ## Progress simulator (app.js lines 200-232)

`startLoadingAnimation` resets the five step elements, marks step 0 active,
and schedules `advanceStep` with `setTimeout`, storing the handle in the
module variable `loadingInterval`.  `advanceStep` advances one step and
re-schedules itself while `currentStep < DOM.steps.length - 1`.  The only
`clearTimeout(loadingInterval)` in the program is the first line of
`renderResults`; the catch path of the submit handler does not cancel.

Timers are modelled as a list of pending timeout ids (schedule order);
`fireTimer` fires the earliest pending one.  `currentStep` models the closure
variable of the most recent `startLoadingAnimation` call (traces below never
fire a stale timer of an earlier run, so a single variable is faithful). -/

/-- CSS classes of one loader step element: `active` and `done` markers. -/
structure StepCls where
  active : Bool
  done : Bool
deriving DecidableEq, Repr

/-- State of the loading animation and its timer bookkeeping, together with
the visible view and the analyze-button state. -/
structure AppSt where
  pending : List Nat
  nextId : Nat
  held : Option Nat
  currentStep : Nat
  steps : List StepCls
  view : View
  btnDisabled : Bool
deriving DecidableEq, Repr

/-- Initial page state: upload view, no timers, plain step elements. -/
def initSt : AppSt :=
  { pending := [], nextId := 0, held := none, currentStep := 0
    steps := List.replicate 5 ⟨false, false⟩, view := .upload, btnDisabled := false }

/-- Discrete events driving the submit/loading lifecycle. -/
inductive Ev
  | submit
  | fireTimer
  | resolveOk
  | resolveErr
  | retryClick
deriving DecidableEq, Repr

/-- Effect of the `advanceStep` body (app.js 217-229) on the loader state,
given that its scheduling timeout has just fired (already removed from
`pending`): below the last step it marks the current step done, the next one
active, and re-schedules itself only while still below the last step. -/
def advanceStep (st : AppSt) : AppSt :=
  if st.currentStep < 4 then
    let st' := { st with
      steps := ((st.steps.set st.currentStep ⟨false, true⟩).set
        (st.currentStep + 1) ⟨true, false⟩)
      currentStep := st.currentStep + 1 }
    if st'.currentStep < 4 then
      { st' with pending := st'.pending ++ [st'.nextId]
                 held := some st'.nextId
                 nextId := st'.nextId + 1 }
    else st'
  else st

/-- One event step of the lifecycle model.  `submit` performs the submit
handler's synchronous prefix (show loading, disable button, reset steps,
schedule the first advancement).  `resolveOk` performs `renderResults`'s
`clearTimeout(loadingInterval)` plus the success continuation; `resolveErr`
performs the catch path, which cancels nothing.  `retryClick` is the
error-view retry button. -/
def stepEv (st : AppSt) (e : Ev) : AppSt :=
  match e with
  | .submit =>
    { st with
      pending := st.pending ++ [st.nextId]
      held := some st.nextId
      nextId := st.nextId + 1
      currentStep := 0
      steps := ⟨true, false⟩ :: List.replicate 4 ⟨false, false⟩
      view := .loading
      btnDisabled := true }
  | .fireTimer =>
    match st.pending with
    | [] => st
    | _ :: rest => advanceStep { st with pending := rest }
  | .resolveOk =>
    let cleared := match st.held with
      | none => st.pending
      | some h => st.pending.filter (· ≠ h)
    { st with pending := cleared, view := .results, btnDisabled := false }
  | .resolveErr =>
    { st with view := .error, btnDisabled := false }
  | .retryClick =>
    { st with view := .upload }

/-- Runs a list of events from a state. -/
def runEvs (st : AppSt) : List Ev → AppSt
  | [] => st
  | e :: es => runEvs (stepEv st e) es

/-- Expected step classes when step `k` is the active one of a clean run. -/
def stepsSpec (k : Nat) : List StepCls :=
  (List.range 5).map (fun i => ⟨i == k, decide (i < k)⟩)

/-! ## Score ring animation (app.js lines 353-385) -/

/-- Color tier chosen by `animateScore` (app.js 358-363): inclusive lower
bounds 80/60/40, else the poor tier. -/
def scoreColor (targetScore : Int) : String :=
  if targetScore ≥ 80 then "var(--score-excellent)"
  else if targetScore ≥ 60 then "var(--score-good)"
  else if targetScore ≥ 40 then "var(--score-average)"
  else "var(--score-poor)"

/-- JS `Math.round`: round half toward positive infinity. -/
def jsRound (q : ℚ) : ℤ := ⌊q + 1/2⌋

/-- State of the counting interval of `animateScore` (app.js 373-384) after a
number of 16ms ticks: the accumulated `current` value and whether
`clearInterval` has run.  Each tick adds `targetScore / (duration / 16)` with
`duration = 1500`; when the accumulation reaches the target it is clamped to
exactly the target and the interval is cleared.  JS float arithmetic is
modelled by exact rationals. -/
def counterState (targetScore : ℚ) : Nat → ℚ × Bool
  | 0 => (0, false)
  | n + 1 =>
    let s := counterState targetScore n
    if s.2 then s
    else
      let c := s.1 + targetScore / (1500 / 16)
      if targetScore ≤ c then (targetScore, true) else (c, false)

/-! ## Markdown formatter (app.js lines 390-423)

`escapeHtml` sets `div.textContent = text` and reads back `div.innerHTML`,
which escapes `&`, `<`, `>` in a text node.  `formatMarkdown` then applies a
chain of regex replaces.  The `/m`-anchored whole-line rules are modelled by
splitting on `'\n'`, transforming each line, and re-joining; the bold rule’s
`.` cannot cross a newline, so it is modelled by a left-to-right scan that
refuses newlines inside a match.  All of this operates on `List Char`. -/

/-- Escaping of a single character as performed by a text node read back
through `innerHTML`. -/
def escChar (c : Char) : List Char :=
  if c = '&' then "&amp;".data
  else if c = '<' then "&lt;".data
  else if c = '>' then "&gt;".data
  else [c]

/-- Models `escapeHtml` (app.js 390-394). -/
def escapeHtml (l : List Char) : List Char := l.flatMap escChar

/-- Splits a character list at newlines (the line structure seen by `^`/`$`
under the `/m` flag; the last line may be empty). -/
def splitLines : List Char → List (List Char)
  | [] => [[]]
  | c :: rest =>
    if c = '\n' then [] :: splitLines rest
    else
      match splitLines rest with
      | [] => [[c]]
      | l :: ls => (c :: l) :: ls

/-- Re-joins lines with newline separators. -/
def joinLines : List (List Char) → List Char
  | [] => []
  | [l] => l
  | l :: ls => l ++ '\n' :: joinLines ls

/-- Applies a whole-line transformation to every line (a `^...$` rule under `/gm`). -/
def mapLines (f : List Char → List Char) (l : List Char) : List Char :=
  joinLines ((splitLines l).map f)

/-- Models `html.replace(/^### (.+)$/gm, '<h3>$1</h3>')` on one line. -/
def h3Line : List Char → List Char
  | '#' :: '#' :: '#' :: ' ' :: rest =>
    if rest = [] then '#' :: '#' :: '#' :: ' ' :: rest
    else "<h3>".data ++ rest ++ "</h3>".data
  | l => l

/-- Models `html.replace(/^## (.+)$/gm, '<h2>$1</h2>')` on one line. -/
def h2Line : List Char → List Char
  | '#' :: '#' :: ' ' :: rest =>
    if rest = [] then '#' :: '#' :: ' ' :: rest
    else "<h2>".data ++ rest ++ "</h2>".data
  | l => l

/-- Models `html.replace(/^# (.+)$/gm, '<h1>$1</h1>')` on one line. -/
def h1Line : List Char → List Char
  | '#' :: ' ' :: rest =>
    if rest = [] then '#' :: ' ' :: rest
    else "<h1>".data ++ rest ++ "</h1>".data
  | l => l

/-- Finds the earliest `**` in the list, refusing to cross a newline (the
regex `.+?` cannot match `\n`).  Returns the part before and after the `**`. -/
def findStars : List Char → Option (List Char × List Char)
  | '*' :: '*' :: rest => some ([], rest)
  | c :: rest =>
    if c = '\n' then none
    else (findStars rest).map (fun p => (c :: p.1, p.2))
  | [] => none

/-- One left-to-right step of `html.replace(/\*\*(.+?)\*\*/g,
'<strong>$1</strong>')`: at an opening `**` with a non-empty newline-free
content and a closing `**`, emit the strong element and continue after the
match; otherwise the scan restarts one character later, as the regex engine
does.  The continuation `next` rescans the remainder; every continuation is
applied to a strictly shorter list, so iterating the step with fuel at least
the length of the input computes the full replacement. -/
def boldStep (next : List Char → List Char) : List Char → List Char
  | [] => []
  | '*' :: '*' :: c :: rest =>
    if c = '\n' then '*' :: next ('*' :: c :: rest)
    else
      match findStars rest with
      | some (a, b) =>
        "<strong>".data ++ (c :: a) ++ "</strong>".data ++ next b
      | none => '*' :: next ('*' :: c :: rest)
  | c :: rest => c :: next rest

/-- Fuelled iteration of `boldStep`; the plain structural recursion on the
fuel keeps the definition kernel-reducible. -/
def boldAux : Nat → List Char → List Char
  | 0, l => l
  | fuel + 1, l => boldStep (boldAux fuel) l

/-- Models the bold replacement on the whole text. -/
def boldRepl (l : List Char) : List Char := boldAux l.length l

/-- Models `html.replace(/^- (.+)$/gm, '<li>$1</li>')` on one line. -/
def dashLiLine : List Char → List Char
  | '-' :: ' ' :: rest =>
    if rest = [] then '-' :: ' ' :: rest
    else "<li>".data ++ rest ++ "</li>".data
  | l => l

/-- Models `html.replace(/^(\d+)\. (.+)$/gm, '<li>$2</li>')` on one line:
one or more leading digits, a literal dot and space, then a non-empty rest. -/
def numLiLine (l : List Char) : List Char :=
  let ds := l.takeWhile Char.isDigit
  if ds = [] then l
  else
    match l.dropWhile Char.isDigit with
    | '.' :: ' ' :: rest =>
      if rest = [] then l else "<li>".data ++ rest ++ "</li>".data
    | _ => l

/-- Prefix test on character lists. -/
def startsWithL : List Char → List Char → Bool
  | [], _ => true
  | _ :: _, [] => false
  | p :: ps, c :: cs => p == c && startsWithL ps cs

/-- Suffix test on character lists. -/
def endsWithL (p l : List Char) : Bool := startsWithL p.reverse l.reverse

/-- Whether a whole line is matched by one iteration of
`(?:<li>.*<\/li>\n?)` of the list-coalescing regex: it must start with
`<li>` and (with the greedy `.*` backtracking to the last `</li>`) end with
`</li>`. -/
def isLiLine (l : List Char) : Bool :=
  startsWithL "<li>".data l && endsWithL "</li>".data l

/-- Models `html.replace(/((?:<li>.*<\/li>\n?)+)/g, '<ul>$1</ul>')` over the
line structure: a maximal run of `<li>…</li>` lines is wrapped in
`<ul>…</ul>`; the `\n?` of the regex absorbs the newline after each item into
the match, so an inner newline stays inside the wrapper and the newline after
the final item of a run that is followed by further text ends up before the
closing `</ul>`.  The flag says whether the scan is currently inside a run. -/
def ulGo : Bool → List (List Char) → List Char
  | inRun, [] => if inRun then "</ul>".data else []
  | inRun, ln :: rest =>
    if isLiLine ln then
      if inRun then '\n' :: (ln ++ ulGo true rest)
      else "<ul>".data ++ ln ++ ulGo true rest
    else
      let tailPart :=
        ln ++ (match rest with | [] => [] | _ :: _ => '\n' :: ulGo false rest)
      if inRun then '\n' :: ("</ul>".data ++ tailPart) else tailPart

/-- Models the list-coalescing replacement on the whole text. -/
def ulWrap (l : List Char) : List Char := ulGo false (splitLines l)

/-- Models `html.replace(/\n\n/g, '</p><p>')` (left-to-right, non-overlapping). -/
def paraRepl : List Char → List Char
  | '\n' :: '\n' :: rest => "</p><p>".data ++ paraRepl rest
  | c :: rest => c :: paraRepl rest
  | [] => []

/-- Models `html.replace(/\n/g, '<br>')`. -/
def brRepl : List Char → List Char
  | '\n' :: rest => "<br>".data ++ brRepl rest
  | c :: rest => c :: brRepl rest
  | [] => []

/-- Embedding of `formatMarkdown` (app.js 396-423): escape, then headers
(h3, h2, h1), bold, list items (dash then numbered), list coalescing,
paragraph conversion with the outer `<p>…</p>` wrap, and line breaks last. -/
def formatMarkdownL (l : List Char) : List Char :=
  let e := escapeHtml l
  let h := mapLines h1Line (mapLines h2Line (mapLines h3Line e))
  let b := boldRepl h
  let li := mapLines numLiLine (mapLines dashLiLine b)
  let ul := ulWrap li
  let para := "<p>".data ++ paraRepl ul ++ "</p>".data
  brRepl para

/-- String version of `escapeHtml`. -/
def escapeHtmlS (s : String) : String := ⟨escapeHtml s.data⟩

/-- String version of `formatMarkdown`. -/
def formatMarkdown (s : String) : String := ⟨formatMarkdownL s.data⟩

/-! ## Result payload and renderer (app.js lines 237-348)

Every field of the response payload is optional.  `renderResults` mutates the
DOM; the embedding turns it into a pure function from the payload and the
current panel state to the new panel state.  Branches of the source that set
nothing (empty interview list, absent cover letter, no download links) leave
the corresponding fields of the state unchanged. -/

/-- The `research_summary` sub-object. -/
structure Research where
  company : Option String
  cultural_tone : Option String
deriving DecidableEq, Repr

/-- The `scores` sub-object (each field independently optional). -/
structure Scores where
  skills : Option Int
  experience : Option Int
  impact : Option Int
  technical_match : Option Int
  cultural_match : Option Int
deriving DecidableEq, Repr

/-- Empty `scores` object (the `data.scores || {}` default). -/
def Scores.empty : Scores := ⟨none, none, none, none, none⟩

/-- One suggestion entry.  The source field `section` is a Lean keyword and is
embedded as `sectionLabel`. -/
structure Suggestion where
  sectionLabel : Option String
  original_text : Option String
  replacement_text : Option String
  reason : Option String
  talking_point : Option String
deriving DecidableEq, Repr

/-- The `downloads` sub-object: four named artifact URLs. -/
structure Downloads where
  optimized_resume : Option String
  interview_prep : Option String
  cover_letter : Option String
  talking_points : Option String
deriving DecidableEq, Repr

/-- Empty `downloads` object (the `data.downloads || {}` default). -/
def Downloads.empty : Downloads := ⟨none, none, none, none⟩

/-- The analysis result payload; every field is optional. -/
structure AnalysisData where
  research_summary : Option Research
  scores : Option Scores
  ats_score : Option Int
  ats_warnings : Option (List String)
  gap_analysis : Option String
  suggestions : Option (List Suggestion)
  interview_questions : Option (List String)
  cover_letter : Option String
  downloads : Option Downloads
deriving DecidableEq, Repr

/-- Minimal payload: every optional field absent. -/
def minimalData : AnalysisData :=
  ⟨none, none, none, none, none, none, none, none, none⟩

/-- Rendering-relevant DOM state: visibility of the four conditional panels
and the text/markup contents the renderer writes. -/
structure Panels where
  summaryText : String
  scoreTargets : List Int
  atsVisible : Bool
  atsListHTML : String
  gapHTML : String
  suggestionsCountText : String
  suggestionsHTML : String
  interviewVisible : Bool
  interviewListHTML : String
  coverVisible : Bool
  coverText : String
  downloadsVisible : Bool
  downloadsHTML : String
deriving DecidableEq, Repr

/-- Initial panel state of the page: conditional panels hidden, contents empty. -/
def initPanels : Panels :=
  { summaryText := "", scoreTargets := [], atsVisible := false, atsListHTML := ""
    gapHTML := "", suggestionsCountText := "", suggestionsHTML := ""
    interviewVisible := false, interviewListHTML := ""
    coverVisible := false, coverText := ""
    downloadsVisible := false, downloadsHTML := "" }

/-- The repeated inline WhatsApp SVG of the share buttons (app.js 306 etc.). -/
def whatsappSvg : String :=
  "<svg class=\"whatsapp-icon\" viewBox=\"0 0 24 24\" width=\"16\" height=\"16\" fill=\"currentColor\"><path d=\"M17.472 14.382c-.297-.149-1.758-.867-2.03-.967-.273-.099-.471-.148-.67.15-.197.297-.767.966-.94 1.164-.173.199-.347.223-.644.075-.297-.15-1.255-.463-2.39-1.475-.883-.788-1.48-1.761-1.653-2.059-.173-.297-.018-.458.13-.606.134-.133.298-.347.446-.52.149-.174.198-.298.298-.497.099-.198.05-.371-.025-.52-.075-.149-.669-1.612-.916-2.207-.242-.579-.487-.5-.669-.51-.173-.008-.371-.01-.57-.01-.198 0-.52.074-.792.372-.272.297-1.04 1.016-1.04 2.479 0 1.462 1.065 2.875 1.213 3.074.149.198 2.096 3.2 5.077 4.487.709.306 1.262.489 1.694.625.712.227 1.36.195 1.871.118.571-.085 1.758-.719 2.006-1.413.248-.694.248-1.289.173-1.413-.074-.124-.272-.198-.57-.347m-5.421 7.403h-.004a9.87 9.87 0 01-5.031-1.378l-.361-.214-3.741.982.998-3.648-.235-.374a9.86 9.86 0 01-1.51-5.26c.001-5.45 4.436-9.884 9.888-9.884 2.64 0 5.122 1.03 6.988 2.898a9.825 9.825 0 012.893 6.994c-.003 5.45-4.437 9.884-9.885 9.884m8.413-18.297A11.815 11.815 0 0012.05 0C5.495 0 .16 5.335.157 11.892c0 2.096.547 4.142 1.588 5.945L.057 24l6.305-1.654a11.882 11.882 0 005.683 1.448h.005c6.554 0 11.89-5.335 11.893-11.893a11.821 11.821 0 00-3.48-8.413z\"/></svg>"

/-- Direct-open download link for one artifact (the `<a href=…>` template of
app.js 302 etc.).  The URL is spliced in verbatim, exactly as the template
literal does. -/
def downloadAnchor (url label : String) : String :=
  "<a href=\"" ++ url ++ "\" class=\"btn-download\" target=\"_blank\" rel=\"noopener\">" ++ label ++ "</a>"

/-- WhatsApp share button for one artifact (the `<button …>` template of
app.js 305 etc., whitespace included).  The URL is spliced verbatim into the
inline `onclick` string. -/
def whatsappButton (url label : String) : String :=
  "<button class=\"btn-whatsapp\" onclick=\"shareToWhatsApp('" ++ url ++ "', '" ++ label ++ "')\">\n                    " ++ whatsappSvg ++ "\n                    WhatsApp\n                </button>"

/-- The `downloadLinks` array built by app.js 299-343: for each of the four
artifact kinds that is truthy, a direct link and a share button are pushed in
the source's order. -/
def downloadLinks (dl : Downloads) : List String :=
  (if jsTruthy dl.optimized_resume then
    [downloadAnchor (jsOr dl.optimized_resume "") "📄 Optimized Resume",
     whatsappButton (jsOr dl.optimized_resume "") "Optimized Resume"]
  else []) ++
  (if jsTruthy dl.interview_prep then
    [downloadAnchor (jsOr dl.interview_prep "") "🎤 Interview Prep PDF",
     whatsappButton (jsOr dl.interview_prep "") "Interview Prep"]
  else []) ++
  (if jsTruthy dl.cover_letter then
    [downloadAnchor (jsOr dl.cover_letter "") "✉️ Cover Letter PDF",
     whatsappButton (jsOr dl.cover_letter "") "Cover Letter"]
  else []) ++
  (if jsTruthy dl.talking_points then
    [downloadAnchor (jsOr dl.talking_points "") "🗣️ Talking Points PDF",
     whatsappButton (jsOr dl.talking_points "") "Talking Points"]
  else [])

/-- The downloads markup `downloadLinks.join('')` written into
`downloadsButtons` when at least one artifact is present. -/
def downloadsMarkup (dl : Downloads) : String := String.join (downloadLinks dl)

/-- Models the JS float text `i * 0.05` of the staggered animation delay.
Exact JS float-to-decimal printing is outside the embedding; no claim
concerns this cosmetic attribute, so the index itself stands in for it. -/
def delayText (i : Nat) : String := toString i

/-- One suggestion block of the template at app.js 271-281 (whitespace of the
template literal included). -/
def suggestionBlock (i : Nat) (s : Suggestion) : String :=
  "\n            <div class=\"suggestion-item\" style=\"animation-delay: " ++ delayText i ++ "s\">\n                <div class=\"suggestion-section\">" ++ escapeHtmlS (jsOr s.sectionLabel "General") ++ "</div>\n                <div class=\"suggestion-diff\">\n                    <div class=\"diff-old\">" ++ escapeHtmlS (jsOr s.original_text "") ++ "</div>\n                    <div class=\"diff-new\">" ++ escapeHtmlS (jsOr s.replacement_text "") ++ "</div>\n                </div>\n                <div class=\"suggestion-reason\">" ++ escapeHtmlS (jsOr s.reason "") ++ "</div>\n                " ++ (if jsTruthy s.talking_point then "<div class=\"suggestion-talking-point\">" ++ escapeHtmlS (jsOr s.talking_point "") ++ "</div>" else "") ++ "\n            </div>\n        "

/-- List of `<li>` entries produced for a list of strings (ATS warnings and
interview questions, app.js 259-260 and 287-288). -/
def liList (ws : List String) : String :=
  String.join (ws.map (fun w => "<li>" ++ escapeHtmlS w ++ "</li>"))

/-- Embedding of `renderResults` (app.js 237-348) as a pure state transform.
It follows the source top to bottom; the initial
`clearTimeout(loadingInterval)` belongs to the timer model (`Ev.resolveOk`).
Branches that write nothing leave the previous panel state in place. -/
def renderResults (data : AnalysisData) (p : Panels) : Panels :=
  let company := jsOr (data.research_summary.bind Research.company) "your target role"
  let tone := jsOr (data.research_summary.bind Research.cultural_tone) "balanced"
  let scores := data.scores.getD Scores.empty
  let warnings := data.ats_warnings.getD []
  let suggestions := data.suggestions.getD []
  let questions := data.interview_questions.getD []
  let dl := data.downloads.getD Downloads.empty
  let links := downloadLinks dl
  let p := { p with
    summaryText := "Analysis complete for " ++ company ++ " • Cultural tone: " ++ tone
    scoreTargets := [data.ats_score.getD 0, scores.skills.getD 0,
      scores.experience.getD 0, scores.impact.getD 0,
      scores.technical_match.getD 0, scores.cultural_match.getD 0]
    gapHTML := formatMarkdown (jsOr data.gap_analysis "No gap analysis available.")
    suggestionsCountText := toString suggestions.length ++ " suggestions"
    suggestionsHTML :=
      String.join (((List.range suggestions.length).zip suggestions).map
        (fun (x : Nat × Suggestion) => suggestionBlock x.1 x.2)) }
  let p := if warnings ≠ [] then
      { p with atsVisible := true, atsListHTML := liList warnings }
    else { p with atsVisible := false }
  let p := if questions ≠ [] then
      { p with interviewVisible := true, interviewListHTML := liList questions }
    else p
  let p := match data.cover_letter with
    | some letter => if letter ≠ "" then
        { p with coverVisible := true, coverText := letter }
      else p
    | none => p
  if links ≠ [] then
    { p with downloadsVisible := true, downloadsHTML := String.join links }
  else p

/-! ## Scanners used to state and prove the markup-safety property -/

/-- Whether a character list begins with `s`, `c` (the two characters that,
after a `<`, would start a script tag). -/
def startsSC : List Char → Bool
  | c₁ :: c₂ :: _ => c₁ == 's' && c₂ == 'c'
  | _ => false

/-- Whether `<sc` occurs anywhere in the list.  Every occurrence of the text
`<script` starts with this trigram, and no inserted formatting tag contains
it, so its absence is the invariant carried through the formatter. -/
def hasSC : List Char → Bool
  | [] => false
  | c :: rest => (c == '<' && startsSC rest) || hasSC rest

/-- Whether the pattern occurs as a contiguous substring. -/
def containsSub (p : List Char) : List Char → Bool
  | [] => startsWithL p []
  | c :: rest => startsWithL p (c :: rest) || containsSub p rest

/-- Whether every character of the list differs from `<`. -/
def noLT (l : List Char) : Bool := l.all (fun c => c ≠ '<')

/-- Soundness certificate for a literal tag string: it ends in `>`, and no
position in it starts `<sc`, not even jointly with the two characters that
follow the tag — so prepending it to any `<sc`-free list yields an
`<sc`-free list. -/
def tagOk : List Char → Bool
  | [] => false
  | [c] => c == '>'
  | c :: rest => !(c == '<' && startsSC rest) && tagOk rest

/-- Characters that may follow a `<` in formatter output: the first
characters of the restricted tag vocabulary (h1/h2/h3, strong, li, ul, p, br
and the `/` of the closing tags). -/
def followChar (d : Char) : Bool :=
  d == 'h' || d == '/' || d == 's' || d == 'l' || d == 'u' || d == 'p' || d == 'b'

/-- Whether a list begins with a vocabulary follower character. -/
def headFollow : List Char → Bool
  | [] => false
  | d :: _ => followChar d

/-- Whether every `<` in the list is immediately followed by a vocabulary
character (in particular, no `<` is the last character). -/
def ltFollowOk : List Char → Bool
  | [] => true
  | c :: rest => (!(c == '<') || headFollow rest) && ltFollowOk rest

/-- Sentinel variant of `ltFollowOk`: the list, followed by a `*`, satisfies
the follower property — so the list also has no trailing `<` and none of its
`<`s relies on what comes after a split point.  `*` works as the sentinel
because it is never a legal follower.  This form is closed under
concatenation. -/
def goodLT (l : List Char) : Bool := ltFollowOk (l ++ ['*'])

/-! ## Theorems -/

/-- Running an event list splits at an append. -/
theorem runEvs_append (st : AppSt) (a b : List Ev) :
    runEvs st (a ++ b) = runEvs (runEvs st a) b := by
  induction a generalizing st with
  | nil => rfl
  | cons e es ih => simpa [runEvs] using ih (stepEv st e)

/-- Firing a timer with no pending timeout changes nothing. -/
theorem fireTimer_empty (st : AppSt) (h : st.pending = []) :
    stepEv st .fireTimer = st := by
  simp [stepEv, h]

/-- C1, counterexample: a transport failure is displayed with the rejection's
own message (`err.message` of the fetch rejection), not with the generic
string "Analysis failed"; no server error field is present, so the claim as
stated predicts the generic string. -/
theorem claim_C1_counterexample :
    submitFlow (.netError "Failed to fetch") =
      { view := .error, errorMessage := some "Failed to fetch", analyzeBtnDisabled := false } ∧
    "Failed to fetch" ≠ "Analysis failed" := by
  constructor
  · rfl
  · decide

/-- C1, amended: a network/transport failure, a non-2xx status, or a truthy
`error` field each end in the Failure view with the submit control enabled.
For response-classified failures the message is the server `error` value when
truthy and otherwise exactly "Analysis failed"; for a transport failure the
message is the transport error's own message.  For the body
`error = "bad file"` under any HTTP status the message is exactly "bad file". -/
theorem claim_C1 :
    (∀ m : String, submitFlow (.netError m) =
      { view := .error, errorMessage := some m, analyzeBtnDisabled := false }) ∧
    (∀ (ok : Bool) (body : Body), (!ok || jsTruthy body.error) = true →
      submitFlow (.response ok body) =
        { view := .error, errorMessage := some (jsOr body.error "Analysis failed")
          analyzeBtnDisabled := false }) ∧
    (∀ (ok : Bool) (body : Body), (!ok || jsTruthy body.error) = false →
      submitFlow (.response ok body) =
        { view := .results, errorMessage := none, analyzeBtnDisabled := false }) ∧
    (∀ ok : Bool, submitFlow (.response ok ⟨some "bad file"⟩) =
      { view := .error, errorMessage := some "bad file", analyzeBtnDisabled := false }) ∧
    (∀ o : FetchOutcome, (submitFlow o).analyzeBtnDisabled = false) := by
  refine ⟨fun m => rfl, ?_, ?_, ?_, ?_⟩
  · intro ok body h
    simp [submitFlow, h]
  · intro ok body h
    simp [submitFlow, h]
  · intro ok
    cases ok <;> decide
  · intro o
    cases o with
    | netError m => rfl
    | response ok body => simp [submitFlow]; split <;> rfl

/-- C1, witness for the amended theorem at concrete outcomes. -/
theorem claim_C1_witness :
    submitFlow (.response false ⟨none⟩) =
      { view := .error, errorMessage := some "Analysis failed", analyzeBtnDisabled := false } ∧
    submitFlow (.response true ⟨some "oops"⟩) =
      { view := .error, errorMessage := some "oops", analyzeBtnDisabled := false } ∧
    submitFlow (.response true ⟨some ""⟩) =
      { view := .results, errorMessage := none, analyzeBtnDisabled := false } :=
  ⟨claim_C1.2.1 false ⟨none⟩ (by decide),
   claim_C1.2.1 true ⟨some "oops"⟩ (by decide),
   claim_C1.2.2.1 true ⟨some ""⟩ (by decide)⟩

/-- C3: on the failure path the scheduled stage advancement is NOT cancelled
(`clearTimeout(loadingInterval)` only runs inside `renderResults`), so after
submit followed by a failed request a stage-advancement timeout is still
pending while the Error view is shown, and after retrying and submitting
again two advancement timeouts are pending at once — the claimed
at-most-one-pending invariant fails.  This evaluates the event model at the
failing trace. -/
theorem claim_C3 :
    (runEvs initSt [.submit, .resolveErr]).pending = [0] ∧
    (runEvs initSt [.submit, .resolveErr]).view = .error ∧
    (runEvs initSt [.submit, .resolveErr, .retryClick, .submit]).pending = [0, 1] := by
  refine ⟨rfl, rfl, rfl⟩

/-- C4: once started (and in the absence of any resolve event), after any
number `n` of timer firings the active stage index is exactly `min n 4` —
stages advance strictly forward one at a time, the index never exceeds 4
(the fifth and last stage), earlier stages are marked done and exactly the
current one is active — and from the moment the last stage is reached no
further advancement is pending. -/
theorem claim_C4 (n : Nat) :
    (runEvs initSt (.submit :: List.replicate n .fireTimer)).currentStep = min n 4 ∧
    (runEvs initSt (.submit :: List.replicate n .fireTimer)).steps = stepsSpec (min n 4) ∧
    (runEvs initSt (.submit :: List.replicate n .fireTimer)).pending =
      (if n < 4 then [n] else []) := by
  induction n with
  | zero => refine ⟨rfl, by decide, rfl⟩
  | succ n ih =>
    by_cases h4 : n < 4
    · interval_cases n <;> exact ⟨by decide, by decide, by decide⟩
    · have hrep : List.replicate (n + 1) Ev.fireTimer =
        List.replicate n Ev.fireTimer ++ [Ev.fireTimer] :=
        (List.replicate_succ' _ _)
      have hcons : (Ev.submit :: List.replicate (n + 1) Ev.fireTimer) =
          (Ev.submit :: List.replicate n Ev.fireTimer) ++ [Ev.fireTimer] := by
        rw [List.cons_append, ← hrep]
      have hrun : runEvs initSt (.submit :: List.replicate (n + 1) .fireTimer) =
          stepEv (runEvs initSt (.submit :: List.replicate n .fireTimer)) .fireTimer := by
        rw [hcons, runEvs_append]; rfl
      have hpend : (runEvs initSt (.submit :: List.replicate n .fireTimer)).pending = [] := by
        simpa [if_neg h4] using ih.2.2
      have hfix := fireTimer_empty _ hpend
      have hmin : min (n + 1) 4 = min n 4 := by omega
      refine ⟨?_, ?_, ?_⟩
      · rw [hrun, hfix, hmin]; exact ih.1
      · rw [hrun, hfix, hmin]; exact ih.2.1
      · rw [hrun, hfix]
        have : ¬ (n + 1 < 4) := by omega
        simpa [this] using hpend

/-- C6: the animator's tier mapping uses inclusive lower bounds 80, 60 and 40,
with the documented boundary behaviour at 39/40/59/60/79/80. -/
theorem claim_C6 :
    (∀ s : Int, 80 ≤ s → scoreColor s = "var(--score-excellent)") ∧
    (∀ s : Int, 60 ≤ s → s < 80 → scoreColor s = "var(--score-good)") ∧
    (∀ s : Int, 40 ≤ s → s < 60 → scoreColor s = "var(--score-average)") ∧
    (∀ s : Int, s < 40 → scoreColor s = "var(--score-poor)") ∧
    scoreColor 39 = "var(--score-poor)" ∧
    scoreColor 40 = "var(--score-average)" ∧
    scoreColor 59 = "var(--score-average)" ∧
    scoreColor 60 = "var(--score-good)" ∧
    scoreColor 79 = "var(--score-good)" ∧
    scoreColor 80 = "var(--score-excellent)" ∧
    scoreColor 0 = "var(--score-poor)" ∧
    scoreColor 100 = "var(--score-excellent)" := by
  refine ⟨?_, ?_, ?_, ?_, by decide, by decide, by decide, by decide, by decide,
    by decide, by decide, by decide⟩
  · intro s h; simp [scoreColor, if_pos h]
  · intro s h1 h2
    have : ¬ (80 ≤ s) := by omega
    simp [scoreColor, this, if_pos h1]
  · intro s h1 h2
    have n1 : ¬ (80 ≤ s) := by omega
    have n2 : ¬ (60 ≤ s) := by omega
    simp [scoreColor, n1, n2, if_pos h1]
  · intro s h
    have n1 : ¬ (80 ≤ s) := by omega
    have n2 : ¬ (60 ≤ s) := by omega
    have n3 : ¬ (40 ≤ s) := by omega
    simp [scoreColor, n1, n2, n3]

/-- C2: the renderer is a total function of the payload by construction
(every field access is defaulted, so every combination of present/absent
optional fields yields a defined result), and on the minimal payload —
every optional field absent — rendering from the initial hidden state leaves
all four conditional panels (ATS warnings, interview questions, cover
letter, downloads bar) hidden. -/
theorem claim_C2 :
    (∀ (d : AnalysisData) (p : Panels), ∃ q : Panels, renderResults d p = q) ∧
    (renderResults minimalData initPanels).atsVisible = false ∧
    (renderResults minimalData initPanels).interviewVisible = false ∧
    (renderResults minimalData initPanels).coverVisible = false ∧
    (renderResults minimalData initPanels).downloadsVisible = false :=
  ⟨fun d p => ⟨renderResults d p, rfl⟩, rfl, rfl, rfl, rfl⟩

/-- C5, counterexample: when the interview-question list is empty the source
has no hide branch (app.js 285-289 sets the panel visible only in the
non-empty case and otherwise writes nothing), so a panel shown by a previous
render stays visible — contradicting the claim that after rendering an empty
list the panel is not visible "even if a previous render had shown it". -/
theorem claim_C5_counterexample :
    (renderResults minimalData { initPanels with interviewVisible := true }).interviewVisible
      = true := rfl

/-- C5, amended: rendering shows the interview panel (with one escaped entry
per question, in input order) exactly when the question list is non-empty,
and shows the cover-letter panel exactly when the cover-letter field is
truthy; but when the list is empty or the field absent the renderer leaves
that panel's visibility unchanged from the prior state (it does not hide
it).  In particular, starting from the hidden initial state the panels are
shown only for non-empty/present fields. -/
theorem claim_C5 (d : AnalysisData) (p : Panels) :
    (d.interview_questions.getD [] ≠ [] →
      (renderResults d p).interviewVisible = true ∧
      (renderResults d p).interviewListHTML = liList (d.interview_questions.getD [])) ∧
    (d.interview_questions.getD [] = [] →
      (renderResults d p).interviewVisible = p.interviewVisible) ∧
    (∀ letter : String, d.cover_letter = some letter → letter ≠ "" →
      (renderResults d p).coverVisible = true ∧
      (renderResults d p).coverText = letter) ∧
    ((jsTruthy d.cover_letter) = false →
      (renderResults d p).coverVisible = p.coverVisible) := by
  refine ⟨?_, ?_, ?_, ?_⟩
  · intro hq
    cases hcl : d.cover_letter <;>
      simp [renderResults, hq, hcl, apply_ite Panels.interviewVisible,
        apply_ite Panels.interviewListHTML]
  · intro hq
    cases hcl : d.cover_letter <;>
      simp [renderResults, hq, hcl, apply_ite Panels.interviewVisible]
  · intro letter hsome hne
    simp [renderResults, hsome, hne, apply_ite Panels.coverVisible,
      apply_ite Panels.coverText]
  · intro hfalse
    cases hcl : d.cover_letter with
    | none => simp [renderResults, hcl, apply_ite Panels.coverVisible]
    | some s =>
      have hs : s = "" := by
        rw [hcl] at hfalse
        simpa [jsTruthy] using hfalse
      simp [renderResults, hcl, hs, apply_ite Panels.coverVisible]

/-- C5, witness applying the amended theorem at concrete payloads. -/
theorem claim_C5_witness :
    ((renderResults { minimalData with interview_questions := some ["Q1"] } initPanels).interviewVisible = true ∧
     (renderResults { minimalData with interview_questions := some ["Q1"] } initPanels).interviewListHTML = liList ["Q1"]) ∧
    (renderResults minimalData initPanels).interviewVisible = initPanels.interviewVisible ∧
    ((renderResults { minimalData with cover_letter := some "CL" } initPanels).coverVisible = true ∧
     (renderResults { minimalData with cover_letter := some "CL" } initPanels).coverText = "CL") ∧
    (renderResults minimalData initPanels).coverVisible = initPanels.coverVisible :=
  ⟨(claim_C5 _ _).1 (by decide),
   (claim_C5 _ _).2.1 rfl,
   (claim_C5 _ _).2.2.1 "CL" rfl (by decide),
   (claim_C5 _ _).2.2.2 (by decide)⟩

/-- C10: every present download artifact URL is spliced verbatim — without
any HTML escaping — into the generated markup twice: once as the `href`
attribute value of the direct-open link and once inside the inline
`onclick="shareToWhatsApp('…')"` handler string.  Consequently a
server-supplied URL containing a double quote places that quote between the
`href="` delimiters, i.e. outside the intended attribute boundary, as the
final conjunct shows for the URL `x"y`. -/
theorem claim_C10 :
    (∀ u : String, u ≠ "" →
      (downloadsMarkup ⟨some u, none, none, none⟩).data =
        ("<a href=\"").data ++ u.data ++
        ("\" class=\"btn-download\" target=\"_blank\" rel=\"noopener\">📄 Optimized Resume</a><button class=\"btn-whatsapp\" onclick=\"shareToWhatsApp('").data ++
        u.data ++
        ("', 'Optimized Resume')\">\n                    " ++ whatsappSvg ++ "\n                    WhatsApp\n                </button>").data) ∧
    (∀ u : String, u ≠ "" →
      (downloadsMarkup ⟨none, some u, none, none⟩).data =
        ("<a href=\"").data ++ u.data ++
        ("\" class=\"btn-download\" target=\"_blank\" rel=\"noopener\">🎤 Interview Prep PDF</a><button class=\"btn-whatsapp\" onclick=\"shareToWhatsApp('").data ++
        u.data ++
        ("', 'Interview Prep')\">\n                    " ++ whatsappSvg ++ "\n                    WhatsApp\n                </button>").data) ∧
    (∀ u : String, u ≠ "" →
      (downloadsMarkup ⟨none, none, some u, none⟩).data =
        ("<a href=\"").data ++ u.data ++
        ("\" class=\"btn-download\" target=\"_blank\" rel=\"noopener\">✉️ Cover Letter PDF</a><button class=\"btn-whatsapp\" onclick=\"shareToWhatsApp('").data ++
        u.data ++
        ("', 'Cover Letter')\">\n                    " ++ whatsappSvg ++ "\n                    WhatsApp\n                </button>").data) ∧
    (∀ u : String, u ≠ "" →
      (downloadsMarkup ⟨none, none, none, some u⟩).data =
        ("<a href=\"").data ++ u.data ++
        ("\" class=\"btn-download\" target=\"_blank\" rel=\"noopener\">🗣️ Talking Points PDF</a><button class=\"btn-whatsapp\" onclick=\"shareToWhatsApp('").data ++
        u.data ++
        ("', 'Talking Points')\">\n                    " ++ whatsappSvg ++ "\n                    WhatsApp\n                </button>").data) ∧
    containsSub ("href=\"x\"y\"").data
      (downloadsMarkup ⟨some "x\"y", none, none, none⟩).data = true := by
  refine ⟨?_, ?_, ?_, ?_, by decide⟩ <;>
    · intro u hu
      simp [downloadsMarkup, downloadLinks, downloadAnchor, whatsappButton,
        jsTruthy, jsOr, hu, String.data_append, List.append_assoc]

/-- C10, witness at a concrete URL. -/
theorem claim_C10_witness :
    (downloadsMarkup ⟨some "q.pdf", none, none, none⟩).data =
      ("<a href=\"").data ++ ("q.pdf").data ++
      ("\" class=\"btn-download\" target=\"_blank\" rel=\"noopener\">📄 Optimized Resume</a><button class=\"btn-whatsapp\" onclick=\"shareToWhatsApp('").data ++
      ("q.pdf").data ++
      ("', 'Optimized Resume')\">\n                    " ++ whatsappSvg ++ "\n                    WhatsApp\n                </button>").data :=
  claim_C10.1 "q.pdf" (by decide)

/-- Before the accumulated value reaches a positive target, the counter value
after `n` ticks is exactly `n` increments and the interval is still live
(for `n ≤ 93`, since `93 · 16 < 1500 ≤ 94 · 16`). -/
theorem counterState_below (t : ℚ) (ht : 0 < t) :
    ∀ n, n ≤ 93 → counterState t n = ((n : ℚ) * (t / (1500 / 16)), false) := by
  intro n
  induction n with
  | zero => intro _; simp [counterState]
  | succ n ih =>
    intro hn
    have hrec := ih (by omega)
    have hub : ((n : ℚ) + 1) ≤ 93 := by
      have : (n : ℚ) ≤ 92 := by exact_mod_cast Nat.le_of_lt_succ (by omega)
      linarith
    have hlt : ((n : ℚ) + 1) * (t / (1500 / 16)) < t := by
      have h1 : ((n : ℚ) + 1) * (t / (1500 / 16)) = ((n : ℚ) + 1) * t * 16 / 1500 := by
        ring
      rw [h1]
      rw [div_lt_iff₀ (by norm_num : (0:ℚ) < 1500)]
      nlinarith
    have hnot : ¬ (t ≤ (n : ℚ) * (t / (1500 / 16)) + t / (1500 / 16)) := by
      intro hle
      have : (n : ℚ) * (t / (1500 / 16)) + t / (1500 / 16) =
          ((n : ℚ) + 1) * (t / (1500 / 16)) := by ring
      rw [this] at hle
      exact absurd hle (not_le.mpr hlt)
    show (let s := counterState t n;
      if s.2 then s
      else
        let c := s.1 + t / (1500 / 16)
        if t ≤ c then (t, true) else (c, false)) = _
    rw [hrec]
    simp only [if_neg hnot]
    push_cast
    ring_nf

/-- C9: for every integer target in 0–100 the counting loop terminates —
within 94 ticks — never having cleared the interval earlier, and on the
stopping tick the accumulated value is clamped to exactly the target, so the
displayed `Math.round` value is exactly the target (never an overshoot).
The target 0 stops on the very first tick. -/
theorem claim_C9 (t : Nat) (ht : t ≤ 100) :
    ∃ n, n ≤ 94 ∧ (counterState (t : ℚ) n).2 = true ∧
      (∀ m, m < n → (counterState (t : ℚ) m).2 = false) ∧
      (counterState (t : ℚ) n).1 = (t : ℚ) ∧
      jsRound ((counterState (t : ℚ) n).1) = t := by
  have hround : jsRound ((t : ℚ)) = t := by
    unfold jsRound
    rw [Int.floor_eq_iff]
    constructor
    · push_cast; linarith
    · push_cast; linarith
  rcases Nat.eq_zero_or_pos t with h0 | hpos
  · subst h0
    refine ⟨1, by omega, ?_, ?_, ?_, ?_⟩
    · simp [counterState]
    · intro m hm
      interval_cases m
      simp [counterState]
    · simp [counterState]
    · simpa [counterState] using hround
  · have htq : (0 : ℚ) < t := by exact_mod_cast hpos
    have h93 := counterState_below (t : ℚ) htq 93 (by omega)
    have hstop : t ≤ (93 : ℚ) * ((t : ℚ) / (1500 / 16)) + (t : ℚ) / (1500 / 16) := by
      have h1 : (93 : ℚ) * ((t : ℚ) / (1500 / 16)) + (t : ℚ) / (1500 / 16) =
          (94 : ℚ) * (t : ℚ) * 16 / 1500 := by ring
      rw [h1, le_div_iff₀ (by norm_num : (0:ℚ) < 1500)]
      nlinarith
    have h94 : counterState (t : ℚ) 94 = ((t : ℚ), true) := by
      show (let s := counterState (t : ℚ) 93;
        if s.2 then s
        else
          let c := s.1 + (t : ℚ) / (1500 / 16)
          if (t : ℚ) ≤ c then ((t : ℚ), true) else (c, false)) = _
      rw [h93]
      have hstop' : (t:ℚ) ≤ ((93:ℕ):ℚ) * ((t : ℚ) / (1500 / 16)) + (t : ℚ) / (1500 / 16) := by
        push_cast
        exact_mod_cast hstop
      rw [if_neg (by decide : ¬ (false = true)), if_pos hstop']
    refine ⟨94, le_refl _, by rw [h94], ?_, by rw [h94], by rw [h94]; exact hround⟩
    intro m hm
    have := counterState_below (t : ℚ) htq m (by omega)
    rw [this]

/-- C9, witness at the concrete target 50. -/
theorem claim_C9_witness :
    ∃ n, n ≤ 94 ∧ (counterState (50 : ℚ) n).2 = true ∧
      (∀ m, m < n → (counterState (50 : ℚ) m).2 = false) ∧
      (counterState (50 : ℚ) n).1 = (50 : ℚ) ∧
      jsRound ((counterState (50 : ℚ) n).1) = 50 := by
  have h := claim_C9 50 (by omega)
  exact_mod_cast h

/-- C8, counterexample: for the input `- a\n- b` the newline separating the
two coalesced list items is captured inside the `<ul>` wrapper (the regex's
`\n?` absorbs it into the match) and the final single-newline pass rewrites
it to `<br>` — so the output does contain a break tag between the list
items, contrary to the claim. -/
theorem claim_C8_counterexample :
    formatMarkdown "- a\n- b" = "<p><ul><li>a</li><br><li>b</li></ul></p>" ∧
    containsSub ("</li><br><li>").data (formatMarkdown "- a\n- b").data = true := by
  constructor
  · rfl
  · decide

/-- C8, amended: the transformations are applied in the claimed order —
escape, then headers, bold, list-item conversion, list-wrapper coalescing,
with paragraph and line-break conversion last — and escaping does precede all
markup generation; but the ordering does not keep break tags out of
coalesced lists: the newline between consecutive list items survives inside
the wrapper and the final line-break pass converts it to `<br>`, so
`- a\n- b` renders as `<p><ul><li>a</li><br><li>b</li></ul></p>`. -/
theorem claim_C8 :
    (∀ l : List Char, formatMarkdownL l =
      brRepl ("<p>".data ++
        paraRepl (ulWrap (mapLines numLiLine (mapLines dashLiLine
          (boldRepl (mapLines h1Line (mapLines h2Line (mapLines h3Line
            (escapeHtml l)))))))) ++ "</p>".data)) ∧
    formatMarkdown "# <x>" = "<p><h1>&lt;x&gt;</h1></p>" ∧
    formatMarkdown "- a\n- b" = "<p><ul><li>a</li><br><li>b</li></ul></p>" ∧
    formatMarkdown "Hello **world**\n\nNext para\nsame para" =
      "<p>Hello <strong>world</strong></p><p>Next para<br>same para</p>" :=
  ⟨fun _ => rfl, rfl, rfl, rfl⟩

/-! ### Toolkit for the `<sc`-absence invariant

The markup-injection safety of `formatMarkdown` is proved by carrying one
invariant through the whole pipeline: the character list never contains the
trigram `<sc`.  The source text is fully HTML-escaped first (so it contains
no `<` at all), and every literal the pipeline inserts afterwards starts
with `<`, ends with `>` and does not contain the trigram — which also rules
out any occurrence straddling a boundary. -/

/-- Unfolding of `startsSC` on a list with at least two elements. -/
theorem startsSC_pair (y z : Char) (l : List Char) :
    startsSC (y :: z :: l) = (y == 's' && z == 'c') := rfl

/-- Unfolding of `hasSC` on a cons cell. -/
theorem hasSC_cons (c : Char) (l : List Char) :
    hasSC (c :: l) = ((c == '<' && startsSC l) || hasSC l) := rfl

/-- The invariant is inherited by the tail. -/
theorem hasSC_tail {c : Char} {l : List Char} (h : hasSC (c :: l) = false) :
    hasSC l = false := by
  rw [hasSC_cons, Bool.or_eq_false_iff] at h
  exact h.2

/-- `startsSC` only looks at the first two elements. -/
theorem startsSC_mono {a b : List Char} (h : startsSC a = true) :
    startsSC (a ++ b) = true := by
  match a with
  | [] => simp [startsSC] at h
  | [y] => simp [startsSC] at h
  | y :: z :: rest => rw [List.cons_append, List.cons_append, startsSC_pair]; exact h

/-- The invariant is inherited by prefixes. -/
theorem hasSC_append_left {a b : List Char} (h : hasSC (a ++ b) = false) :
    hasSC a = false := by
  induction a with
  | nil => rfl
  | cons x a' ih =>
    rw [List.cons_append, hasSC_cons, Bool.or_eq_false_iff] at h
    rw [hasSC_cons, Bool.or_eq_false_iff]
    refine ⟨?_, ih h.2⟩
    cases hx : (x == '<') with
    | false => rfl
    | true =>
      cases hs : startsSC a' with
      | false => simp [hx, hs]
      | true => rw [startsSC_mono hs] at h; simp [hx] at h

/-- The invariant is inherited by suffixes. -/
theorem hasSC_append_right {a b : List Char} (h : hasSC (a ++ b) = false) :
    hasSC b = false := by
  induction a with
  | nil => exact h
  | cons x a' ih => exact ih (hasSC_tail h)

/-- A list without `<` satisfies the invariant. -/
theorem hasSC_of_noLT {l : List Char} (h : noLT l = true) : hasSC l = false := by
  induction l with
  | nil => rfl
  | cons c rest ih =>
    rw [noLT, List.all_cons, Bool.and_eq_true] at h
    rw [hasSC_cons, Bool.or_eq_false_iff]
    refine ⟨?_, ih h.2⟩
    have hc : c ≠ '<' := by simpa using h.1
    simp [hc]

/-- Joining two invariant-satisfying lists around a separator character that
cannot occur in `<sc` preserves the invariant (no straddling occurrence can
exist, because it would have to contain the separator). -/
theorem hasSC_append_sep {a b : List Char} (c : Char)
    (hc₁ : c ≠ '<') (hc₂ : c ≠ 's') (hc₃ : c ≠ 'c')
    (ha : hasSC a = false) (hb : hasSC b = false) :
    hasSC (a ++ c :: b) = false := by
  induction a with
  | nil =>
    rw [List.nil_append, hasSC_cons, Bool.or_eq_false_iff]
    exact ⟨by simp [hc₁], hb⟩
  | cons x a' ih =>
    rw [hasSC_cons, Bool.or_eq_false_iff] at ha
    rw [List.cons_append, hasSC_cons, Bool.or_eq_false_iff]
    refine ⟨?_, ih ha.2⟩
    cases hx : (x == '<') with
    | false => rfl
    | true =>
      rw [Bool.true_and]
      match a' with
      | [] =>
        match b with
        | [] => rfl
        | d :: bs => rw [List.nil_append, startsSC_pair]; simp [hc₂]
      | [y] => rw [List.cons_append, List.nil_append, startsSC_pair]; simp [hc₃]
      | y :: z :: rest =>
        rw [List.cons_append, List.cons_append, startsSC_pair]
        have := ha.1
        rw [hx, Bool.true_and, startsSC_pair] at this
        exact this

/-- Appending a list that starts with `<` to an invariant-satisfying list
preserves the invariant, provided the appended part satisfies it. -/
theorem hasSC_append_ltHead {a b' : List Char}
    (ha : hasSC a = false) (hb : hasSC ('<' :: b') = false) :
    hasSC (a ++ '<' :: b') = false := by
  induction a with
  | nil => simpa using hb
  | cons x a' ih =>
    rw [hasSC_cons, Bool.or_eq_false_iff] at ha
    rw [List.cons_append, hasSC_cons, Bool.or_eq_false_iff]
    refine ⟨?_, ih ha.2⟩
    cases hx : (x == '<') with
    | false => rfl
    | true =>
      rw [Bool.true_and]
      match a' with
      | [] =>
        rw [List.nil_append]
        match b' with
        | [] => rfl
        | d :: bs => rw [startsSC_pair]; simp
      | [y] => rw [List.cons_append, List.nil_append, startsSC_pair]; simp
      | y :: z :: rest =>
        rw [List.cons_append, List.cons_append, startsSC_pair]
        have := ha.1
        rw [hx, Bool.true_and, startsSC_pair] at this
        exact this

/-- A singleton passes the tag certificate only for `>`. -/
theorem tagOk_single {c : Char} (h : tagOk [c] = true) : c = '>' := by
  by_contra hc
  rw [show tagOk [c] = (c == '>') from rfl] at h
  simp [hc] at h

/-- Prepending a certified literal tag preserves the invariant: the literal
itself contains no `<sc`, ends in `>`, and no position of it can start an
occurrence reaching into the continuation. -/
theorem tagOk_append {t b : List Char} (ht : tagOk t = true) (hb : hasSC b = false) :
    hasSC (t ++ b) = false := by
  induction t with
  | nil => simp [tagOk] at ht
  | cons c rest ih =>
    match rest with
    | [] =>
      have hc := tagOk_single ht
      subst hc
      rw [List.cons_append, List.nil_append, hasSC_cons, Bool.or_eq_false_iff]
      exact ⟨by simp, hb⟩
    | r :: rs =>
      rw [show tagOk (c :: r :: rs) = (!(c == '<' && startsSC (r :: rs)) && tagOk (r :: rs)) from rfl,
        Bool.and_eq_true, Bool.not_eq_true'] at ht
      rw [List.cons_append, hasSC_cons, Bool.or_eq_false_iff]
      refine ⟨?_, ih ht.2⟩
      cases hx : (c == '<') with
      | false => rfl
      | true =>
        rw [Bool.true_and]
        match rs with
        | [] =>
          have hr := tagOk_single ht.2
          subst hr
          match b with
          | [] => rfl
          | d :: bs => rw [List.cons_append, List.nil_append, startsSC_pair]; simp
        | z :: rest' =>
          rw [List.cons_append, List.cons_append, startsSC_pair]
          have := ht.1
          rw [hx, Bool.true_and, startsSC_pair] at this
          exact this

/-- Appending a certified literal tag that starts with `<` on the right
preserves the invariant. -/
theorem hasSC_append_tag {a t' : List Char}
    (ha : hasSC a = false) (ht : tagOk ('<' :: t') = true) :
    hasSC (a ++ '<' :: t') = false := by
  have hb : hasSC ('<' :: t') = false := by
    have := tagOk_append ht (b := []) rfl
    simpa using this
  exact hasSC_append_ltHead ha hb

/-- Wrapping an invariant-satisfying list in certified open/close tags, the
closing one starting with `<`, preserves the invariant. -/
theorem hasSC_wrap {o t' rest : List Char}
    (ho : tagOk o = true) (hcl : tagOk ('<' :: t') = true)
    (hr : hasSC rest = false) :
    hasSC (o ++ rest ++ '<' :: t') = false := by
  rw [List.append_assoc]
  exact tagOk_append ho (hasSC_append_tag hr hcl)

/-! ### Escaping kills every `<` -/

/-- The HTML escaping step leaves no `<` in its output at all. -/
theorem noLT_escapeHtml (l : List Char) : noLT (escapeHtml l) = true := by
  induction l with
  | nil => rfl
  | cons c rest ih =>
    rw [escapeHtml, List.flatMap_cons, noLT, List.all_append]
    rw [escapeHtml] at ih
    rw [noLT] at ih
    rw [ih, Bool.and_true]
    unfold escChar
    split
    · decide
    · split
      · decide
      · split
        · decide
        · rename_i h₁ h₂ h₃
          simp [h₂]

/-- Hence the escaped text satisfies the `<sc`-absence invariant. -/
theorem hasSC_escapeHtml (l : List Char) : hasSC (escapeHtml l) = false :=
  hasSC_of_noLT (noLT_escapeHtml l)

/-! ### Lines: splitting, joining, and transporting the invariant -/

/-- `splitLines` never returns an empty list of lines. -/
theorem splitLines_ne_nil (l : List Char) : splitLines l ≠ [] := by
  match l with
  | [] => simp [splitLines]
  | c :: rest =>
    rw [splitLines]
    split
    · simp
    · split <;> simp

/-- Joining after a cons distributes over the first line. -/
theorem joinLines_cons_cons (c : Char) (s : List Char) (S : List (List Char)) :
    joinLines ((c :: s) :: S) = c :: joinLines (s :: S) := by
  match S with
  | [] => rfl
  | t :: S' => rfl

/-- `joinLines` is a left inverse of `splitLines`. -/
theorem joinLines_splitLines (l : List Char) : joinLines (splitLines l) = l := by
  induction l with
  | nil => rfl
  | cons c rest ih =>
    rw [splitLines]
    by_cases hc : c = '\n'
    · rw [if_pos hc]
      match hS : splitLines rest with
      | [] => exact absurd hS (splitLines_ne_nil rest)
      | s :: S' =>
        rw [hS] at ih
        rw [show joinLines ([] :: s :: S') = '\n' :: joinLines (s :: S') from rfl, ih, hc]
    · rw [if_neg hc]
      match hS : splitLines rest with
      | [] => exact absurd hS (splitLines_ne_nil rest)
      | s :: S' =>
        rw [hS] at ih
        rw [joinLines_cons_cons, ih]

/-- Joining invariant-satisfying lines preserves the invariant (the newline
separator cannot take part in an `<sc` occurrence). -/
theorem hasSC_joinLines {ls : List (List Char)}
    (h : ∀ x ∈ ls, hasSC x = false) : hasSC (joinLines ls) = false := by
  induction ls with
  | nil => rfl
  | cons s S ih =>
    match S with
    | [] => exact h s (List.mem_singleton.mpr rfl)
    | t :: S' =>
      rw [show joinLines (s :: t :: S') = s ++ '\n' :: joinLines (t :: S') from rfl]
      exact hasSC_append_sep '\n' (by decide) (by decide) (by decide)
        (h s (by simp)) (ih (fun x hx => h x (List.mem_cons_of_mem s hx)))

/-- Every line of an invariant-satisfying list satisfies the invariant. -/
theorem hasSC_of_joinLines {ls : List (List Char)}
    (h : hasSC (joinLines ls) = false) : ∀ x ∈ ls, hasSC x = false := by
  induction ls with
  | nil => intro x hx; cases hx
  | cons s S ih =>
    match S with
    | [] =>
      intro x hx
      rw [List.mem_singleton] at hx
      subst hx
      exact h
    | t :: S' =>
      rw [show joinLines (s :: t :: S') = s ++ '\n' :: joinLines (t :: S') from rfl] at h
      intro x hx
      rcases List.mem_cons.mp hx with rfl | hx'
      · exact hasSC_append_left h
      · exact ih (hasSC_tail (hasSC_append_right h)) x hx'

/-- Lines of an invariant-satisfying text satisfy the invariant. -/
theorem hasSC_splitLines {l : List Char} (h : hasSC l = false) :
    ∀ x ∈ splitLines l, hasSC x = false := by
  apply hasSC_of_joinLines
  rw [joinLines_splitLines]
  exact h

/-- A per-line transformation that preserves the invariant lifts to the whole
text through `mapLines`. -/
theorem hasSC_mapLines {f : List Char → List Char}
    (hf : ∀ x, hasSC x = false → hasSC (f x) = false)
    {l : List Char} (h : hasSC l = false) : hasSC (mapLines f l) = false := by
  rw [mapLines]
  apply hasSC_joinLines
  intro y hy
  rcases List.mem_map.mp hy with ⟨x, hx, rfl⟩
  exact hf x (hasSC_splitLines h x hx)

/-! ### Per-line transformations preserve the invariant -/

/-- The h3 header rule preserves the invariant. -/
theorem hasSC_h3Line {l : List Char} (h : hasSC l = false) :
    hasSC (h3Line l) = false := by
  unfold h3Line
  split
  · split
    · exact h
    · rename_i rest _
      have hr : hasSC rest = false := hasSC_tail (hasSC_tail (hasSC_tail (hasSC_tail h)))
      rw [show ("</h3>".data : List Char) = '<' :: "/h3>".data from rfl]
      exact hasSC_wrap (by decide) (by decide) hr
  · exact h

/-- The h2 header rule preserves the invariant. -/
theorem hasSC_h2Line {l : List Char} (h : hasSC l = false) :
    hasSC (h2Line l) = false := by
  unfold h2Line
  split
  · split
    · exact h
    · rename_i rest _
      have hr : hasSC rest = false := hasSC_tail (hasSC_tail (hasSC_tail h))
      rw [show ("</h2>".data : List Char) = '<' :: "/h2>".data from rfl]
      exact hasSC_wrap (by decide) (by decide) hr
  · exact h

/-- The h1 header rule preserves the invariant. -/
theorem hasSC_h1Line {l : List Char} (h : hasSC l = false) :
    hasSC (h1Line l) = false := by
  unfold h1Line
  split
  · split
    · exact h
    · rename_i rest _
      have hr : hasSC rest = false := hasSC_tail (hasSC_tail h)
      rw [show ("</h1>".data : List Char) = '<' :: "/h1>".data from rfl]
      exact hasSC_wrap (by decide) (by decide) hr
  · exact h

/-- The dash list-item rule preserves the invariant. -/
theorem hasSC_dashLiLine {l : List Char} (h : hasSC l = false) :
    hasSC (dashLiLine l) = false := by
  unfold dashLiLine
  split
  · split
    · exact h
    · rename_i rest _
      have hr : hasSC rest = false := hasSC_tail (hasSC_tail h)
      rw [show ("</li>".data : List Char) = '<' :: "/li>".data from rfl]
      exact hasSC_wrap (by decide) (by decide) hr
  · exact h

/-- The numbered list-item rule preserves the invariant. -/
theorem hasSC_numLiLine {l : List Char} (h : hasSC l = false) :
    hasSC (numLiLine l) = false := by
  unfold numLiLine
  dsimp only
  split
  · exact h
  · split
    · rename_i rest heq
      split
      · exact h
      · have hdw : hasSC (l.dropWhile Char.isDigit) = false := by
          have hsplit := List.takeWhile_append_dropWhile (p := Char.isDigit) (l := l)
          rw [← hsplit] at h
          exact hasSC_append_right h
        rw [heq] at hdw
        have hr : hasSC rest = false := hasSC_tail (hasSC_tail hdw)
        exact hasSC_wrap (by decide) (by decide) hr
    · exact h

/-! ### The bold pass preserves the invariant -/

/-- Specification of `findStars`: a successful split reassembles the input
around the found `**`. -/
theorem findStars_eq : ∀ {l a b : List Char},
    findStars l = some (a, b) → l = a ++ '*' :: '*' :: b := by
  intro l
  induction l with
  | nil => intro a b h; simp [findStars] at h
  | cons c rest ih =>
    intro a b h
    rw [findStars.eq_def] at h
    split at h
    · rename_i rest₂ heq
      injection h with h'
      injection h' with h1 h2
      subst h1; subst h2
      simpa using heq
    · rename_i c' rest' heq
      injection heq with e1 e2
      subst e1; subst e2
      split at h
      · exact absurd h (by simp)
      · rcases Option.map_eq_some'.mp h with ⟨⟨a', b'⟩, hfs, hpair⟩
        injection hpair with h1 h2
        subst h1; subst h2
        have := ih hfs
        rw [List.cons_append, ← this]
    · rename_i heq
      exact absurd heq (by simp)

/-- The first character of one bold step's output is `<` or the input's own
first character, whatever the continuation does. -/
theorem headBoldStep (next : List Char → List Char) (l : List Char)
    {c : Char} {r' : List Char}
    (h : boldStep next l = c :: r') : c = '<' ∨ l.head? = some c := by
  unfold boldStep at h
  split at h
  · simp at h
  · split at h
    · injection h with h1 _; right; rw [← h1]; rfl
    · split at h
      · rename_i a b _
        rw [show ("<strong>".data : List Char) = '<' :: "strong>".data from rfl,
          List.cons_append] at h
        injection h with h1 _
        left; exact h1.symm
      · injection h with h1 _; right; rw [← h1]; rfl
  · injection h with h1 _; right; rw [← h1]; rfl

/-- The first character of the bold pass's output is `<` or the input's own
first character. -/
theorem headBoldAux : ∀ (fuel : Nat) (l : List Char) {c : Char} {r' : List Char},
    boldAux fuel l = c :: r' → c = '<' ∨ l.head? = some c := by
  intro fuel
  induction fuel with
  | zero => intro l c r' h; right; rw [show boldAux 0 l = l from rfl] at h; rw [h]; rfl
  | succ n _ =>
    intro l c r' h
    exact headBoldStep (boldAux n) l h

/-- A list starting with `sc` decomposes accordingly. -/
theorem startsSC_head {c : Char} {X : List Char} (h : startsSC (c :: X) = true) :
    c = 's' ∧ X.head? = some 'c' := by
  match X with
  | [] => exact absurd h (by simp [startsSC])
  | y :: Y =>
    rw [startsSC_pair, Bool.and_eq_true] at h
    exact ⟨by simpa using h.1, by simpa using (show y = 'c' by simpa using h.2)⟩

/-- Default-arm core of `startsSC_boldStep`. -/
theorem startsSC_bold_default (next : List Char → List Char)
    (hhead : ∀ (l' : List Char) {c : Char} {r' : List Char},
      next l' = c :: r' → c = '<' ∨ l'.head? = some c)
    (c : Char) (rest : List Char)
    (h : startsSC (c :: next rest) = true) : startsSC (c :: rest) = true := by
  obtain ⟨hc, hy⟩ := startsSC_head h
  subst hc
  cases hX : next rest with
  | nil => rw [hX] at hy; simp at hy
  | cons y Y =>
    rw [hX] at hy
    have hyc : y = 'c' := by simpa using hy
    subst hyc
    rcases hhead rest hX with hlt | hh
    · exact absurd hlt (by decide)
    · cases rest with
      | nil => simp at hh
      | cons z rest' =>
        have : z = 'c' := by simpa using hh
        subst this
        simp [startsSC_pair]

/-- If one bold step's output starts with `sc`, so did its input, provided
the continuation's output head is `<` or the input head. -/
theorem startsSC_boldStep (next : List Char → List Char)
    (hhead : ∀ (l' : List Char) {c : Char} {r' : List Char},
      next l' = c :: r' → c = '<' ∨ l'.head? = some c)
    (l : List Char) (h : startsSC (boldStep next l) = true) :
    startsSC l = true := by
  unfold boldStep at h
  split at h
  · exact h
  · split at h
    · exact absurd (startsSC_head h).1 (by decide)
    · split at h
      · exact absurd (startsSC_head h).1 (by decide)
      · exact absurd (startsSC_head h).1 (by decide)
  · exact startsSC_bold_default next hhead _ _ h

/-- If the bold pass's output starts with `sc`, so did its input. -/
theorem startsSC_boldAux (fuel : Nat) (l : List Char)
    (h : startsSC (boldAux fuel l) = true) : startsSC l = true := by
  cases fuel with
  | zero => exact h
  | succ n => exact startsSC_boldStep (boldAux n) (headBoldAux n) l h

/-- Default-arm core of `hasSC_boldStep`. -/
theorem hasSC_bold_default (next : List Char → List Char)
    (hnext : ∀ l', hasSC l' = false → hasSC (next l') = false)
    (hstart : ∀ l', startsSC (next l') = true → startsSC l' = true)
    (c : Char) (rest : List Char) (h : hasSC (c :: rest) = false) :
    hasSC (c :: next rest) = false := by
  have hX := hnext rest (hasSC_tail h)
  rw [hasSC_cons, hX]
  cases hc : (c == '<') with
  | false => simp
  | true =>
    cases hS : startsSC (next rest) with
    | false => simp
    | true =>
      exfalso
      have h2 := hstart rest hS
      rw [hasSC_cons, hc, h2, Bool.or_eq_false_iff] at h
      simp at h

/-- One bold step preserves the invariant, given that the continuation does
and reflects `startsSC`. -/
theorem hasSC_boldStep (next : List Char → List Char)
    (hnext : ∀ l', hasSC l' = false → hasSC (next l') = false)
    (hstart : ∀ l', startsSC (next l') = true → startsSC l' = true)
    (l : List Char) (h : hasSC l = false) :
    hasSC (boldStep next l) = false := by
  unfold boldStep
  split
  · rfl
  · rename_i c rest
    split
    · have hX := hnext ('*' :: c :: rest) (hasSC_tail h)
      rw [hasSC_cons, hX]
      simp
    · split
      · rename_i a b heq
        have hsplit := findStars_eq heq
        have h2 := hasSC_tail (hasSC_tail h)
        rw [hsplit] at h2
        have h3 : hasSC ((c :: a) ++ '*' :: '*' :: b) = false := h2
        have hca := hasSC_append_left h3
        have hb := hasSC_tail (hasSC_tail (hasSC_append_right h3))
        have hD := hnext b hb
        have h4 : hasSC ("</strong>".data ++ next b) = false :=
          tagOk_append (by decide) hD
        have h5 : hasSC ('<' :: ("/strong>".data ++ next b)) = false := h4
        have h6 := hasSC_append_ltHead hca h5
        rw [List.append_assoc, List.append_assoc]
        exact tagOk_append (by decide)
          (show hasSC ((c :: a) ++ ("</strong>".data ++ next b)) = false from h6)
      · have hX := hnext ('*' :: c :: rest) (hasSC_tail h)
        rw [hasSC_cons, hX]
        simp
  · exact hasSC_bold_default next hnext hstart _ _ h

/-- The bold pass preserves the invariant. -/
theorem hasSC_boldAux : ∀ (fuel : Nat) (l : List Char), hasSC l = false →
    hasSC (boldAux fuel l) = false := by
  intro fuel
  induction fuel with
  | zero => intro l h; exact h
  | succ n ih =>
    intro l h
    exact hasSC_boldStep (boldAux n) ih (startsSC_boldAux n) l h

/-! ### List coalescing, paragraphs and line breaks preserve the invariant -/

/-- A successful prefix test decomposes the list. -/
theorem startsWithL_exists : ∀ {p l : List Char}, startsWithL p l = true →
    ∃ r, l = p ++ r := by
  intro p
  induction p with
  | nil => intro l _; exact ⟨l, rfl⟩
  | cons x ps ih =>
    intro l h
    match l with
    | [] => simp [startsWithL] at h
    | c :: cs =>
      rw [show startsWithL (x :: ps) (c :: cs) = (x == c && startsWithL ps cs) from rfl,
        Bool.and_eq_true] at h
      have hx : x = c := by simpa using h.1
      rcases ih h.2 with ⟨r, hr⟩
      exact ⟨r, by rw [hr, hx]; rfl⟩

/-- A successful suffix test decomposes the list. -/
theorem endsWithL_exists {p l : List Char} (h : endsWithL p l = true) :
    ∃ l', l = l' ++ p := by
  rcases startsWithL_exists h with ⟨r, hr⟩
  refine ⟨r.reverse, ?_⟩
  have := congrArg List.reverse hr
  rw [List.reverse_reverse, List.reverse_append, List.reverse_reverse] at this
  exact this

/-- Appending anything to a complete `<li>…</li>` line preserves the
invariant (such a line ends in `>`). -/
theorem hasSC_li_cont {ln D : List Char} (hli : isLiLine ln = true)
    (hln : hasSC ln = false) (hD : hasSC D = false) :
    hasSC (ln ++ D) = false := by
  rw [isLiLine, Bool.and_eq_true] at hli
  rcases endsWithL_exists hli.2 with ⟨ln', hend⟩
  subst hend
  have h4 : hasSC ("</li>".data ++ D) = false := tagOk_append (by decide) hD
  have h5 : hasSC ('<' :: ("/li>".data ++ D)) = false := h4
  rw [List.append_assoc]
  exact hasSC_append_ltHead (hasSC_append_left hln) h5

/-- The list-coalescing pass preserves the invariant, for both scanner
phases. -/
theorem hasSC_ulGo : ∀ (ls : List (List Char)), (∀ x ∈ ls, hasSC x = false) →
    ∀ inRun, hasSC (ulGo inRun ls) = false := by
  intro ls
  induction ls with
  | nil => intro _ inRun; cases inRun <;> decide
  | cons ln rest ih =>
    intro h inRun
    have hln : hasSC ln = false := h ln (by simp)
    have hrest : ∀ x ∈ rest, hasSC x = false := fun x hx => h x (by simp [hx])
    rw [ulGo.eq_def]
    dsimp only
    cases rest with
    | nil =>
      split
      · rename_i hli
        cases inRun with
        | true =>
          rw [if_pos rfl, hasSC_cons, hasSC_li_cont hli hln (ih hrest true)]
          simp
        | false =>
          rw [if_neg (by simp), List.append_assoc]
          exact tagOk_append (by decide) (hasSC_li_cont hli hln (ih hrest true))
      · cases inRun with
        | true =>
          rw [if_pos rfl, hasSC_cons,
            tagOk_append (by decide) (show hasSC (ln ++ []) = false by simpa using hln)]
          simp
        | false =>
          rw [if_neg (by simp)]
          simpa using hln
    | cons r rs =>
      split
      · rename_i hli
        cases inRun with
        | true =>
          rw [if_pos rfl, hasSC_cons, hasSC_li_cont hli hln (ih hrest true)]
          simp
        | false =>
          rw [if_neg (by simp), List.append_assoc]
          exact tagOk_append (by decide) (hasSC_li_cont hli hln (ih hrest true))
      · have htail : hasSC (ln ++ '\n' :: ulGo false (r :: rs)) = false :=
          hasSC_append_sep '\n' (by decide) (by decide) (by decide) hln (ih hrest false)
        cases inRun with
        | true =>
          rw [if_pos rfl, hasSC_cons, tagOk_append (by decide) htail]
          simp
        | false =>
          rw [if_neg (by simp)]
          exact htail

/-- The first character of the paragraph pass's output is `<` or the input's
own first character. -/
theorem headPara {l : List Char} {c : Char} {r' : List Char}
    (h : paraRepl l = c :: r') : c = '<' ∨ l.head? = some c := by
  rw [paraRepl.eq_def] at h
  split at h
  · rw [show ("</p><p>".data : List Char) = '<' :: "/p><p>".data from rfl,
      List.cons_append] at h
    injection h with h1 _
    left; exact h1.symm
  · injection h with h1 _; right; rw [← h1]; rfl
  · simp at h

/-- Default-arm reflection of `startsSC` through the paragraph pass. -/
theorem startsSC_para_default {d : Char} {Y : List Char}
    (h : startsSC (d :: paraRepl Y) = true) : startsSC (d :: Y) = true := by
  obtain ⟨hd, hy⟩ := startsSC_head h
  subst hd
  cases hX : paraRepl Y with
  | nil => rw [hX] at hy; simp at hy
  | cons z Z =>
    rw [hX] at hy
    have hz : z = 'c' := by simpa using hy
    subst hz
    rcases headPara hX with hlt | hh
    · exact absurd hlt (by decide)
    · cases Y with
      | nil => simp at hh
      | cons w Y' =>
        have : w = 'c' := by simpa using hh
        subst this
        simp [startsSC_pair]

/-- If the paragraph pass's output starts with `sc`, so did its input. -/
theorem startsSC_paraRepl {l : List Char}
    (h : startsSC (paraRepl l) = true) : startsSC l = true := by
  rw [paraRepl.eq_def] at h
  split at h
  · exact absurd (startsSC_head h).1 (by decide)
  · exact startsSC_para_default h
  · exact h

/-- Default-arm preservation of the invariant through the paragraph pass. -/
theorem hasSC_para_default {d : Char} {Y : List Char}
    (hrec : hasSC (paraRepl Y) = false) (h : hasSC (d :: Y) = false) :
    hasSC (d :: paraRepl Y) = false := by
  rw [hasSC_cons, hrec]
  cases hd : (d == '<') with
  | false => simp
  | true =>
    cases hS : startsSC (paraRepl Y) with
    | false => simp
    | true =>
      exfalso
      have h2 := startsSC_paraRepl hS
      rw [hasSC_cons, hd, h2, Bool.or_eq_false_iff] at h
      simp at h

/-- The paragraph pass preserves the invariant. -/
theorem hasSC_paraRepl : ∀ (l : List Char), hasSC l = false →
    hasSC (paraRepl l) = false := by
  have H : ∀ (n : Nat) (l : List Char), l.length ≤ n → hasSC l = false →
      hasSC (paraRepl l) = false := by
    intro n
    induction n with
    | zero =>
      intro l hl h
      have : l = [] := List.length_eq_zero.mp (Nat.le_zero.mp hl)
      subst this
      exact h
    | succ n ih =>
      intro l hl h
      rw [paraRepl.eq_def]
      split
      · exact tagOk_append (by decide)
          (ih _ (by simp only [List.length_cons] at hl; omega)
            (hasSC_tail (hasSC_tail h)))
      · exact hasSC_para_default
          (ih _ (by simp only [List.length_cons] at hl; omega) (hasSC_tail h)) h
      · rfl
  exact fun l => H l.length l (le_refl _)

/-- The first character of the line-break pass's output is `<` or the input's
own first character. -/
theorem headBr {l : List Char} {c : Char} {r' : List Char}
    (h : brRepl l = c :: r') : c = '<' ∨ l.head? = some c := by
  rw [brRepl.eq_def] at h
  split at h
  · rw [show ("<br>".data : List Char) = '<' :: "br>".data from rfl,
      List.cons_append] at h
    injection h with h1 _
    left; exact h1.symm
  · injection h with h1 _; right; rw [← h1]; rfl
  · simp at h

/-- Default-arm reflection of `startsSC` through the line-break pass. -/
theorem startsSC_br_default {d : Char} {Y : List Char}
    (h : startsSC (d :: brRepl Y) = true) : startsSC (d :: Y) = true := by
  obtain ⟨hd, hy⟩ := startsSC_head h
  subst hd
  cases hX : brRepl Y with
  | nil => rw [hX] at hy; simp at hy
  | cons z Z =>
    rw [hX] at hy
    have hz : z = 'c' := by simpa using hy
    subst hz
    rcases headBr hX with hlt | hh
    · exact absurd hlt (by decide)
    · cases Y with
      | nil => simp at hh
      | cons w Y' =>
        have : w = 'c' := by simpa using hh
        subst this
        simp [startsSC_pair]

/-- If the line-break pass's output starts with `sc`, so did its input. -/
theorem startsSC_brRepl {l : List Char}
    (h : startsSC (brRepl l) = true) : startsSC l = true := by
  rw [brRepl.eq_def] at h
  split at h
  · exact absurd (startsSC_head h).1 (by decide)
  · exact startsSC_br_default h
  · exact h

/-- Default-arm preservation of the invariant through the line-break pass. -/
theorem hasSC_para_default_br {d : Char} {Y : List Char}
    (hrec : hasSC (brRepl Y) = false) (h : hasSC (d :: Y) = false) :
    hasSC (d :: brRepl Y) = false := by
  rw [hasSC_cons, hrec]
  cases hd : (d == '<') with
  | false => simp
  | true =>
    cases hS : startsSC (brRepl Y) with
    | false => simp
    | true =>
      exfalso
      have h2 := startsSC_brRepl hS
      rw [hasSC_cons, hd, h2, Bool.or_eq_false_iff] at h
      simp at h

/-- The line-break pass preserves the invariant. -/
theorem hasSC_brRepl : ∀ (l : List Char), hasSC l = false →
    hasSC (brRepl l) = false := by
  intro l
  induction l with
  | nil => intro _; rfl
  | cons c rest ih =>
    intro h
    by_cases hc : c = '\n'
    · subst hc
      rw [show brRepl ('\n' :: rest) = "<br>".data ++ brRepl rest from rfl]
      exact tagOk_append (by decide) (ih (hasSC_tail h))
    · have hred : brRepl (c :: rest) = c :: brRepl rest := by
        rw [brRepl.eq_def]
        split
        · rename_i heq
          injection heq with e1 _
          exact absurd e1 hc
        · rename_i heq
          injection heq with e1 e2
          rw [e1, e2]
        · rename_i heq
          exact absurd heq (by simp)
      rw [hred]
      exact hasSC_para_default_br (ih (hasSC_tail h)) h

/-- The whole-text bold replacement preserves the invariant. -/
theorem hasSC_boldRepl {l : List Char} (h : hasSC l = false) :
    hasSC (boldRepl l) = false :=
  hasSC_boldAux l.length l h

/-- The full formatter output never contains the trigram `<sc`. -/
theorem hasSC_formatMarkdownL (l : List Char) : hasSC (formatMarkdownL l) = false := by
  show hasSC (brRepl _) = false
  apply hasSC_brRepl
  apply @hasSC_wrap ("<p>".data) ("/p>".data) _ (by decide) (by decide)
  apply hasSC_paraRepl
  show hasSC (ulGo false _) = false
  apply hasSC_ulGo
  apply hasSC_splitLines
  apply hasSC_mapLines (fun x hx => hasSC_numLiLine hx)
  apply hasSC_mapLines (fun x hx => hasSC_dashLiLine hx)
  apply hasSC_boldRepl
  apply hasSC_mapLines (fun x hx => hasSC_h1Line hx)
  apply hasSC_mapLines (fun x hx => hasSC_h2Line hx)
  apply hasSC_mapLines (fun x hx => hasSC_h3Line hx)
  exact hasSC_escapeHtml l

/-- A list without the trigram `<sc` contains no substring starting with it. -/
theorem containsSub_of_hasSC {l : List Char} (h : hasSC l = false)
    (p : List Char) : containsSub ('<' :: 's' :: 'c' :: p) l = false := by
  induction l with
  | nil => rfl
  | cons c rest ih =>
    rw [show containsSub ('<' :: 's' :: 'c' :: p) (c :: rest) =
      (startsWithL ('<' :: 's' :: 'c' :: p) (c :: rest) ||
        containsSub ('<' :: 's' :: 'c' :: p) rest) from rfl]
    rw [ih (hasSC_tail h)]
    cases hS : startsWithL ('<' :: 's' :: 'c' :: p) (c :: rest) with
    | false => simp
    | true =>
      exfalso
      rcases startsWithL_exists hS with ⟨r, hr⟩
      rw [List.cons_append, List.cons_append, List.cons_append] at hr
      rw [hr, hasSC_cons, startsSC_pair] at h
      simp at h

/-! ### Toolkit for the `<`-follower invariant

A second scanner strengthens the safety result: every `<` of the formatter
output is immediately followed by one of the seven tag-start characters.
The invariant is carried in the sentinel form `goodLT`, which is closed
under concatenation; every inserted literal is certified by `decide`. -/

/-- Unfolding of `ltFollowOk` on a cons cell. -/
theorem ltFollowOk_cons (c : Char) (l : List Char) :
    ltFollowOk (c :: l) = ((!(c == '<') || headFollow l) && ltFollowOk l) := rfl

/-- `ltFollowOk` is inherited by the tail. -/
theorem ltFollowOk_tail {c : Char} {l : List Char}
    (h : ltFollowOk (c :: l) = true) : ltFollowOk l = true := by
  rw [ltFollowOk_cons, Bool.and_eq_true] at h
  exact h.2

/-- Unfolding of `goodLT` on a cons cell. -/
theorem goodLT_cons (c : Char) (l : List Char) :
    goodLT (c :: l) = ((!(c == '<') || headFollow (l ++ ['*'])) && goodLT l) := rfl

/-- `goodLT` is inherited by the tail. -/
theorem goodLT_tail {c : Char} {l : List Char}
    (h : goodLT (c :: l) = true) : goodLT l = true := by
  rw [goodLT_cons, Bool.and_eq_true] at h
  exact h.2

/-- `headFollow` only looks at the first element. -/
theorem headFollow_cons_append (d : Char) (l l' : List Char) :
    headFollow ((d :: l) ++ l') = followChar d := rfl

/-- The sentinel form is closed under concatenation: a trailing `<` of the
left part would make its own sentinel check fail. -/
theorem goodLT_append {a b : List Char} (ha : goodLT a = true)
    (hb : goodLT b = true) : goodLT (a ++ b) = true := by
  induction a with
  | nil => exact hb
  | cons c a' ih =>
    rw [goodLT_cons, Bool.and_eq_true] at ha
    show goodLT (c :: (a' ++ b)) = true
    rw [goodLT_cons, Bool.and_eq_true]
    refine ⟨?_, ih ha.2⟩
    cases hc : (c == '<') with
    | false => simp
    | true =>
      rw [Bool.not_true, Bool.false_or]
      have h1 := ha.1
      rw [hc, Bool.not_true, Bool.false_or] at h1
      match a' with
      | [] => rw [show headFollow ([] ++ ['*']) = followChar '*' from rfl] at h1; simp [followChar] at h1
      | d :: a'' =>
        rw [headFollow_cons_append] at h1
        exact h1

/-- The sentinel form is inherited by suffixes. -/
theorem goodLT_append_right {a b : List Char} (h : goodLT (a ++ b) = true) :
    goodLT b = true := by
  induction a with
  | nil => exact h
  | cons c a' ih => exact ih (goodLT_tail h)

/-- The sentinel form is inherited by a prefix that is cut right before a
non-follower character. -/
theorem goodLT_pre {y z : List Char} {c : Char}
    (h : goodLT (y ++ c :: z) = true) (hc : followChar c = false) :
    goodLT y = true := by
  induction y with
  | nil => rfl
  | cons d y' ih =>
    have h' : goodLT (d :: (y' ++ c :: z)) = true := h
    rw [goodLT_cons, Bool.and_eq_true] at h'
    rw [goodLT_cons, Bool.and_eq_true]
    refine ⟨?_, ih h'.2⟩
    cases hd : (d == '<') with
    | false => simp
    | true =>
      rw [Bool.not_true, Bool.false_or]
      have h1 := h'.1
      rw [hd, Bool.not_true, Bool.false_or] at h1
      match y' with
      | [] =>
        rw [show headFollow ([] ++ c :: z ++ ['*']) = followChar c from rfl] at h1
        rw [hc] at h1
        exact absurd h1 (by simp)
      | e :: y'' =>
        rw [show headFollow ((e :: y'') ++ c :: z ++ ['*']) = followChar e from rfl] at h1
        rw [show headFollow ((e :: y'') ++ ['*']) = followChar e from rfl]
        exact h1

/-- A list without `<` satisfies the sentinel follower property. -/
theorem goodLT_of_noLT {l : List Char} (h : noLT l = true) : goodLT l = true := by
  induction l with
  | nil => rfl
  | cons c rest ih =>
    rw [noLT, List.all_cons, Bool.and_eq_true] at h
    rw [goodLT_cons, Bool.and_eq_true]
    have hc : c ≠ '<' := by simpa using h.1
    exact ⟨by simp [hc], ih h.2⟩

/-- The follower property itself follows from the sentinel form. -/
theorem ltFollowOk_of_goodLT : ∀ {l : List Char}, goodLT l = true →
    ltFollowOk l = true := by
  intro l
  induction l with
  | nil => intro _; rfl
  | cons c rest ih =>
    intro h
    rw [goodLT_cons, Bool.and_eq_true] at h
    rw [ltFollowOk_cons, Bool.and_eq_true]
    refine ⟨?_, ih h.2⟩
    cases hc : (c == '<') with
    | false => simp
    | true =>
      rw [Bool.not_true, Bool.false_or]
      have h1 := h.1
      rw [hc, Bool.not_true, Bool.false_or] at h1
      match rest with
      | [] =>
        rw [show headFollow ([] ++ ['*']) = followChar '*' from rfl] at h1
        simp [followChar] at h1
      | d :: rest' =>
        rw [headFollow_cons_append] at h1
        exact h1

/-- The escaped text satisfies the sentinel follower property. -/
theorem goodLT_escapeHtml (l : List Char) : goodLT (escapeHtml l) = true :=
  goodLT_of_noLT (noLT_escapeHtml l)

/-- Joining follower-safe lines preserves the property. -/
theorem goodLT_joinLines {ls : List (List Char)}
    (h : ∀ x ∈ ls, goodLT x = true) : goodLT (joinLines ls) = true := by
  induction ls with
  | nil => rfl
  | cons s S ih =>
    match S with
    | [] => exact h s (List.mem_singleton.mpr rfl)
    | t :: S' =>
      rw [show joinLines (s :: t :: S') = s ++ '\n' :: joinLines (t :: S') from rfl]
      refine goodLT_append (h s (by simp)) ?_
      rw [goodLT_cons, Bool.and_eq_true]
      exact ⟨by simp, ih (fun x hx => h x (List.mem_cons_of_mem s hx))⟩

/-- Every line of a follower-safe joined text is follower-safe. -/
theorem goodLT_of_joinLines {ls : List (List Char)}
    (h : goodLT (joinLines ls) = true) : ∀ x ∈ ls, goodLT x = true := by
  induction ls with
  | nil => intro x hx; cases hx
  | cons s S ih =>
    match S with
    | [] =>
      intro x hx
      rw [List.mem_singleton] at hx
      subst hx
      exact h
    | t :: S' =>
      rw [show joinLines (s :: t :: S') = s ++ '\n' :: joinLines (t :: S') from rfl] at h
      intro x hx
      rcases List.mem_cons.mp hx with rfl | hx'
      · exact goodLT_pre h (by decide)
      · exact ih (goodLT_tail (goodLT_append_right h)) x hx'

/-- Lines of a follower-safe text are follower-safe. -/
theorem goodLT_splitLines {l : List Char} (h : goodLT l = true) :
    ∀ x ∈ splitLines l, goodLT x = true := by
  apply goodLT_of_joinLines
  rw [joinLines_splitLines]
  exact h

/-- A follower-safe per-line transformation lifts through `mapLines`. -/
theorem goodLT_mapLines {f : List Char → List Char}
    (hf : ∀ x, goodLT x = true → goodLT (f x) = true)
    {l : List Char} (h : goodLT l = true) : goodLT (mapLines f l) = true := by
  rw [mapLines]
  apply goodLT_joinLines
  intro y hy
  rcases List.mem_map.mp hy with ⟨x, hx, rfl⟩
  exact hf x (goodLT_splitLines h x hx)

/-- The h3 header rule preserves the follower property. -/
theorem goodLT_h3Line {l : List Char} (h : goodLT l = true) :
    goodLT (h3Line l) = true := by
  unfold h3Line
  split
  · split
    · exact h
    · rename_i rest _
      have hr : goodLT rest = true := goodLT_tail (goodLT_tail (goodLT_tail (goodLT_tail h)))
      exact goodLT_append (goodLT_append (by decide) hr) (by decide)
  · exact h

/-- The h2 header rule preserves the follower property. -/
theorem goodLT_h2Line {l : List Char} (h : goodLT l = true) :
    goodLT (h2Line l) = true := by
  unfold h2Line
  split
  · split
    · exact h
    · rename_i rest _
      have hr : goodLT rest = true := goodLT_tail (goodLT_tail (goodLT_tail h))
      exact goodLT_append (goodLT_append (by decide) hr) (by decide)
  · exact h

/-- The h1 header rule preserves the follower property. -/
theorem goodLT_h1Line {l : List Char} (h : goodLT l = true) :
    goodLT (h1Line l) = true := by
  unfold h1Line
  split
  · split
    · exact h
    · rename_i rest _
      have hr : goodLT rest = true := goodLT_tail (goodLT_tail h)
      exact goodLT_append (goodLT_append (by decide) hr) (by decide)
  · exact h

/-- The dash list-item rule preserves the follower property. -/
theorem goodLT_dashLiLine {l : List Char} (h : goodLT l = true) :
    goodLT (dashLiLine l) = true := by
  unfold dashLiLine
  split
  · split
    · exact h
    · rename_i rest _
      have hr : goodLT rest = true := goodLT_tail (goodLT_tail h)
      exact goodLT_append (goodLT_append (by decide) hr) (by decide)
  · exact h

/-- The numbered list-item rule preserves the follower property. -/
theorem goodLT_numLiLine {l : List Char} (h : goodLT l = true) :
    goodLT (numLiLine l) = true := by
  unfold numLiLine
  dsimp only
  split
  · exact h
  · split
    · rename_i rest heq
      split
      · exact h
      · have hdw : goodLT (l.dropWhile Char.isDigit) = true := by
          have hsplit := List.takeWhile_append_dropWhile (p := Char.isDigit) (l := l)
          rw [← hsplit] at h
          exact goodLT_append_right h
        rw [heq] at hdw
        have hr : goodLT rest = true := goodLT_tail (goodLT_tail hdw)
        exact goodLT_append (goodLT_append (by decide) hr) (by decide)
    · exact h

/-- One bold step of a non-empty list is non-empty. -/
theorem boldStep_ne_nil (next : List Char → List Char) :
    ∀ l : List Char, l ≠ [] → boldStep next l ≠ [] := by
  intro l hl
  unfold boldStep
  split
  · exact absurd rfl hl
  · split
    · simp
    · split
      · rw [show ("<strong>".data : List Char) = '<' :: "strong>".data from rfl,
          List.cons_append]
        simp
      · simp
  · simp

/-- The bold pass of a non-empty list is non-empty. -/
theorem boldAux_ne_nil (fuel : Nat) (l : List Char) (hl : l ≠ []) :
    boldAux fuel l ≠ [] := by
  cases fuel with
  | zero => exact hl
  | succ n => exact boldStep_ne_nil (boldAux n) l hl

/-- The first character of one bold step's output is the input's own first
character, unless it is a `<` of an inserted tag — in which case the input
started with `*`. -/
theorem headBold2Step (next : List Char → List Char) (l : List Char)
    {c : Char} {r' : List Char} (h : boldStep next l = c :: r') :
    l.head? = some c ∨ (c = '<' ∧ l.head? = some '*') := by
  unfold boldStep at h
  split at h
  · simp at h
  · split at h
    · injection h with h1 _; left; rw [← h1]; rfl
    · split at h
      · rename_i a b _
        rw [show ("<strong>".data : List Char) = '<' :: "strong>".data from rfl,
          List.cons_append] at h
        injection h with h1 _
        right; exact ⟨h1.symm, rfl⟩
      · injection h with h1 _; left; rw [← h1]; rfl
  · injection h with h1 _; left; rw [← h1]; rfl

/-- The first character of the bold pass's output is the input's own first
character, unless it is a `<` of an inserted tag — then the input started
with `*`. -/
theorem headBold2Aux : ∀ (fuel : Nat) (l : List Char) {c : Char} {r' : List Char},
    boldAux fuel l = c :: r' → l.head? = some c ∨ (c = '<' ∧ l.head? = some '*') := by
  intro fuel
  cases fuel with
  | zero => intro l c r' h; left; rw [show boldAux 0 l = l from rfl] at h; rw [h]; rfl
  | succ n => intro l c r' h; exact headBold2Step (boldAux n) l h

/-- Default-arm preservation of the follower property through the bold pass. -/
theorem goodLT_bold_default (n : Nat) (c : Char) (rest : List Char)
    (hrec : goodLT (boldAux n rest) = true)
    (h : goodLT (c :: rest) = true) : goodLT (c :: boldAux n rest) = true := by
  rw [goodLT_cons, Bool.and_eq_true]
  refine ⟨?_, hrec⟩
  cases hc : (c == '<') with
  | false => simp
  | true =>
    rw [Bool.not_true, Bool.false_or]
    rw [goodLT_cons, Bool.and_eq_true] at h
    have h1 := h.1
    rw [hc, Bool.not_true, Bool.false_or] at h1
    cases rest with
    | nil =>
      rw [show headFollow ([] ++ ['*']) = followChar '*' from rfl] at h1
      simp [followChar] at h1
    | cons d rest₂ =>
      rw [headFollow_cons_append] at h1
      have hne := boldAux_ne_nil n (d :: rest₂) (by simp)
      cases hX : boldAux n (d :: rest₂) with
      | nil => exact absurd hX hne
      | cons e E =>
        rcases headBold2Aux n (d :: rest₂) hX with hh | ⟨hlt, hstar⟩
        · have hed : d = e := by simpa using hh
          exact hed ▸ h1
        · have hd' : d = '*' := by simpa using hstar
          rw [hd'] at h1
          simp [followChar] at h1

/-- The bold pass preserves the follower property. -/
theorem goodLT_boldAux : ∀ (fuel : Nat) (l : List Char), goodLT l = true →
    goodLT (boldAux fuel l) = true := by
  intro fuel
  induction fuel with
  | zero => intro l h; exact h
  | succ n ih =>
    intro l h
    show goodLT (boldStep (boldAux n) l) = true
    unfold boldStep
    split
    · decide
    · rename_i c rest
      split
      · rw [goodLT_cons, Bool.and_eq_true]
        exact ⟨by simp, ih _ (goodLT_tail h)⟩
      · split
        · rename_i a b heq
          have hsplit := findStars_eq heq
          have h2 : goodLT (c :: rest) = true := goodLT_tail (goodLT_tail h)
          rw [hsplit] at h2
          have h3 : goodLT ((c :: a) ++ '*' :: '*' :: b) = true := h2
          have hca : goodLT (c :: a) = true := goodLT_pre h3 (by decide)
          have hb : goodLT b = true := goodLT_tail (goodLT_tail (goodLT_append_right h3))
          exact goodLT_append (goodLT_append (goodLT_append (by decide) hca) (by decide))
            (ih b hb)
        · rw [goodLT_cons, Bool.and_eq_true]
          exact ⟨by simp, ih _ (goodLT_tail h)⟩
    · exact goodLT_bold_default n _ _ (ih _ (goodLT_tail h)) h

/-- The whole-text bold replacement preserves the follower property. -/
theorem goodLT_boldRepl {l : List Char} (h : goodLT l = true) :
    goodLT (boldRepl l) = true :=
  goodLT_boldAux l.length l h

/-- The list-coalescing pass preserves the follower property. -/
theorem goodLT_ulGo : ∀ (ls : List (List Char)), (∀ x ∈ ls, goodLT x = true) →
    ∀ inRun, goodLT (ulGo inRun ls) = true := by
  intro ls
  induction ls with
  | nil => intro _ inRun; cases inRun <;> decide
  | cons ln rest ih =>
    intro h inRun
    have hln : goodLT ln = true := h ln (by simp)
    have hrest : ∀ x ∈ rest, goodLT x = true := fun x hx => h x (by simp [hx])
    rw [ulGo.eq_def]
    dsimp only
    cases rest with
    | nil =>
      split
      · cases inRun with
        | true =>
          rw [if_pos rfl, goodLT_cons, Bool.and_eq_true]
          exact ⟨by simp, goodLT_append hln (ih hrest true)⟩
        | false =>
          rw [if_neg (by simp)]
          exact goodLT_append (goodLT_append (by decide) hln) (ih hrest true)
      · cases inRun with
        | true =>
          rw [if_pos rfl, goodLT_cons, Bool.and_eq_true]
          exact ⟨by simp, goodLT_append (by decide) (by simpa using hln)⟩
        | false =>
          rw [if_neg (by simp)]
          simpa using hln
    | cons r rs =>
      split
      · cases inRun with
        | true =>
          rw [if_pos rfl, goodLT_cons, Bool.and_eq_true]
          exact ⟨by simp, goodLT_append hln (ih hrest true)⟩
        | false =>
          rw [if_neg (by simp)]
          exact goodLT_append (goodLT_append (by decide) hln) (ih hrest true)
      · have hX : goodLT ('\n' :: ulGo false (r :: rs)) = true := by
          rw [goodLT_cons, Bool.and_eq_true]
          exact ⟨by simp, ih hrest false⟩
        cases inRun with
        | true =>
          rw [if_pos rfl, goodLT_cons, Bool.and_eq_true]
          exact ⟨by simp, goodLT_append (by decide) (goodLT_append hln hX)⟩
        | false =>
          rw [if_neg (by simp)]
          exact goodLT_append hln hX

/-- The paragraph pass of a non-empty list is non-empty. -/
theorem paraRepl_ne_nil : ∀ l : List Char, l ≠ [] → paraRepl l ≠ [] := by
  intro l hl
  rw [paraRepl.eq_def]
  split
  · rw [show ("</p><p>".data : List Char) = '<' :: "/p><p>".data from rfl,
      List.cons_append]
    simp
  · simp
  · exact absurd rfl hl

/-- The first character of the paragraph pass's output is the input's own
first character, unless it is a `<` of the inserted paragraph tags — then
the input started with a newline. -/
theorem headPara2 {l : List Char} {c : Char} {r' : List Char}
    (h : paraRepl l = c :: r') :
    l.head? = some c ∨ (c = '<' ∧ l.head? = some '\n') := by
  rw [paraRepl.eq_def] at h
  split at h
  · rw [show ("</p><p>".data : List Char) = '<' :: "/p><p>".data from rfl,
      List.cons_append] at h
    injection h with h1 _
    right; exact ⟨h1.symm, rfl⟩
  · injection h with h1 _; left; rw [← h1]; rfl
  · simp at h

/-- Default-arm preservation of the follower property through the paragraph
pass. -/
theorem goodLT_para_default {d : Char} {Y : List Char}
    (hrec : goodLT (paraRepl Y) = true) (h : goodLT (d :: Y) = true) :
    goodLT (d :: paraRepl Y) = true := by
  rw [goodLT_cons, Bool.and_eq_true]
  refine ⟨?_, hrec⟩
  cases hd : (d == '<') with
  | false => simp
  | true =>
    rw [Bool.not_true, Bool.false_or]
    rw [goodLT_cons, Bool.and_eq_true] at h
    have h1 := h.1
    rw [hd, Bool.not_true, Bool.false_or] at h1
    cases Y with
    | nil =>
      rw [show headFollow ([] ++ ['*']) = followChar '*' from rfl] at h1
      simp [followChar] at h1
    | cons e Y₂ =>
      rw [headFollow_cons_append] at h1
      have hne := paraRepl_ne_nil (e :: Y₂) (by simp)
      cases hX : paraRepl (e :: Y₂) with
      | nil => exact absurd hX hne
      | cons f F =>
        rcases headPara2 hX with hh | ⟨hlt, hnl⟩
        · have hef : e = f := by simpa using hh
          exact hef ▸ h1
        · have he' : e = '\n' := by simpa using hnl
          rw [he'] at h1
          simp [followChar] at h1

/-- The paragraph pass preserves the follower property. -/
theorem goodLT_paraRepl : ∀ (l : List Char), goodLT l = true →
    goodLT (paraRepl l) = true := by
  have H : ∀ (n : Nat) (l : List Char), l.length ≤ n → goodLT l = true →
      goodLT (paraRepl l) = true := by
    intro n
    induction n with
    | zero =>
      intro l hl h
      have : l = [] := List.length_eq_zero.mp (Nat.le_zero.mp hl)
      subst this
      exact h
    | succ n ih =>
      intro l hl h
      rw [paraRepl.eq_def]
      split
      · exact goodLT_append (by decide)
          (ih _ (by simp only [List.length_cons] at hl; omega)
            (goodLT_tail (goodLT_tail h)))
      · exact goodLT_para_default
          (ih _ (by simp only [List.length_cons] at hl; omega) (goodLT_tail h)) h
      · rfl
  exact fun l => H l.length l (le_refl _)

/-- The line-break pass of a non-empty list is non-empty. -/
theorem brRepl_ne_nil : ∀ l : List Char, l ≠ [] → brRepl l ≠ [] := by
  intro l hl
  rw [brRepl.eq_def]
  split
  · rw [show ("<br>".data : List Char) = '<' :: "br>".data from rfl,
      List.cons_append]
    simp
  · simp
  · exact absurd rfl hl

/-- The first character of the line-break pass's output is the input's own
first character, unless it is the `<` of an inserted break tag — then the
input started with a newline. -/
theorem headBr2 {l : List Char} {c : Char} {r' : List Char}
    (h : brRepl l = c :: r') :
    l.head? = some c ∨ (c = '<' ∧ l.head? = some '\n') := by
  rw [brRepl.eq_def] at h
  split at h
  · rw [show ("<br>".data : List Char) = '<' :: "br>".data from rfl,
      List.cons_append] at h
    injection h with h1 _
    right; exact ⟨h1.symm, rfl⟩
  · injection h with h1 _; left; rw [← h1]; rfl
  · simp at h

/-- Default-arm preservation of the follower property through the line-break
pass. -/
theorem goodLT_br_default {d : Char} {Y : List Char}
    (hrec : goodLT (brRepl Y) = true) (h : goodLT (d :: Y) = true) :
    goodLT (d :: brRepl Y) = true := by
  rw [goodLT_cons, Bool.and_eq_true]
  refine ⟨?_, hrec⟩
  cases hd : (d == '<') with
  | false => simp
  | true =>
    rw [Bool.not_true, Bool.false_or]
    rw [goodLT_cons, Bool.and_eq_true] at h
    have h1 := h.1
    rw [hd, Bool.not_true, Bool.false_or] at h1
    cases Y with
    | nil =>
      rw [show headFollow ([] ++ ['*']) = followChar '*' from rfl] at h1
      simp [followChar] at h1
    | cons e Y₂ =>
      rw [headFollow_cons_append] at h1
      have hne := brRepl_ne_nil (e :: Y₂) (by simp)
      cases hX : brRepl (e :: Y₂) with
      | nil => exact absurd hX hne
      | cons f F =>
        rcases headBr2 hX with hh | ⟨hlt, hnl⟩
        · have hef : e = f := by simpa using hh
          exact hef ▸ h1
        · have he' : e = '\n' := by simpa using hnl
          rw [he'] at h1
          simp [followChar] at h1

/-- The line-break pass preserves the follower property. -/
theorem goodLT_brRepl : ∀ (l : List Char), goodLT l = true →
    goodLT (brRepl l) = true := by
  intro l
  induction l with
  | nil => intro _; rfl
  | cons c rest ih =>
    intro h
    by_cases hc : c = '\n'
    · subst hc
      rw [show brRepl ('\n' :: rest) = "<br>".data ++ brRepl rest from rfl]
      exact goodLT_append (by decide) (ih (goodLT_tail h))
    · have hred : brRepl (c :: rest) = c :: brRepl rest := by
        rw [brRepl.eq_def]
        split
        · rename_i heq
          injection heq with e1 _
          exact absurd e1 hc
        · rename_i heq
          injection heq with e1 e2
          rw [e1, e2]
        · rename_i heq
          exact absurd heq (by simp)
      rw [hred]
      exact goodLT_br_default (ih (goodLT_tail h)) h

/-- The full formatter output satisfies the sentinel follower property. -/
theorem goodLT_formatMarkdownL (l : List Char) : goodLT (formatMarkdownL l) = true := by
  show goodLT (brRepl _) = true
  apply goodLT_brRepl
  apply goodLT_append _ (by decide)
  apply goodLT_append (by decide)
  apply goodLT_paraRepl
  show goodLT (ulGo false _) = true
  apply goodLT_ulGo
  apply goodLT_splitLines
  apply goodLT_mapLines (fun x hx => goodLT_numLiLine hx)
  apply goodLT_mapLines (fun x hx => goodLT_dashLiLine hx)
  apply goodLT_boldRepl
  apply goodLT_mapLines (fun x hx => goodLT_h1Line hx)
  apply goodLT_mapLines (fun x hx => goodLT_h2Line hx)
  apply goodLT_mapLines (fun x hx => goodLT_h3Line hx)
  exact goodLT_escapeHtml l

/-- C7: `formatMarkdown` escapes every HTML metacharacter before any
markup-generating step — the escaped text contains no `<` at all — and for
every input string, including one containing raw `<script>` text, the output
contains no executable script tag: the substring `<script` never occurs, and
moreover every `<` of the output is immediately followed by one of the seven
characters that start the restricted formatting vocabulary (`h` of h1/h2/h3,
`s` of strong, `l` of li, `u` of ul, `p`, `b` of br, and `/` of the closing
tags) — so every `<` belongs to an inserted formatting literal, never to
escaped input text. -/
theorem claim_C7 :
    (∀ l : List Char, noLT (escapeHtml l) = true) ∧
    (∀ s : String, containsSub ("<script".data) (formatMarkdown s).data = false) ∧
    (∀ s : String, ltFollowOk (formatMarkdown s).data = true) :=
  ⟨noLT_escapeHtml,
   fun s => containsSub_of_hasSC (hasSC_formatMarkdownL s.data) "ript".data,
   fun s => ltFollowOk_of_goodLT (goodLT_formatMarkdownL s.data)⟩

/-- C6, witness at concrete scores discharging the bound hypotheses. -/
theorem claim_C6_witness :
    scoreColor 85 = "var(--score-excellent)" ∧
    scoreColor 65 = "var(--score-good)" ∧
    scoreColor 45 = "var(--score-average)" ∧
    scoreColor 5 = "var(--score-poor)" :=
  ⟨claim_C6.1 85 (by decide),
   claim_C6.2.1 65 (by decide) (by decide),
   claim_C6.2.2.1 45 (by decide) (by decide),
   claim_C6.2.2.2.1 5 (by decide)⟩

end ResumeOptimizer
